import Mathlib

/-!
Verification of the gogogo hot-path data plane (Router, Cache, Coalescer,
content orchestrator) against its natural-language specification.

The Go sources are shallowly embedded:
* Go strings and byte slices are embedded as `List Nat` (their byte
  sequences); Go's `<` on strings is bytewise lexicographic, and
  `hash/fnv`'s 64-bit FNV-1a digests the bytes, so this embedding is exact.
* `time.Time` values are carried as their Unix representation (`Int`),
  exactly the form in which `modules/cache/cache.go` stores and compares
  them (`expiry.Unix()`, `time.Now().Unix()`).
* the `tidwall/btree` ordered collection used by a cache shard, with
  comparator `a.Key < b.Key`, is embedded as a list kept in key order:
  `bget` is `BTree.Get` (lookup by comparator equality), `bset` is
  `BTree.Set` (insert or replace), `bdel` is `BTree.Delete`,
  and `BTree.Ascend` from the zero pivot is an in-order scan.
* goroutine-per-request concurrency for the coalescer is embedded as an
  interleaving small-step transition system whose atomic steps are the
  lock-protected critical sections of `modules/coalescer/coalescer.go`.
-/

set_option linter.dupNamespace false
set_option maxRecDepth 100000
set_option linter.unusedVariables false

namespace GoGo

/-- a Go string or byte slice, embedded as its sequence of bytes -/
abbrev Str := List Nat

/-- bytewise lexicographic strict order on byte strings; this is Go's
`<` on `string`, the comparator `entryCompare` of `modules/cache/cache.go`
uses it on entry keys. -/
def strLt : Str → Str → Bool
  | _, [] => false
  | [], _ :: _ => true
  | a :: as, b :: bs => if a < b then true else if b < a then false else strLt as bs

theorem strLt_irrefl (s : Str) : strLt s s = false := by
  induction s with
  | nil => rfl
  | cons a as ih => simp [strLt, ih]

theorem strLt_asymm {a b : Str} (h : strLt a b = true) : strLt b a = false := by
  induction a generalizing b with
  | nil =>
    cases b with
    | nil => simp [strLt] at h
    | cons x xs => simp [strLt]
  | cons x xs ih =>
    cases b with
    | nil => simp [strLt] at h
    | cons y ys =>
      by_cases hxy : x < y
      · simp [strLt, hxy, Nat.lt_asymm hxy, Nat.ne_of_gt hxy]
      · by_cases hyx : y < x
        · simp [strLt, hxy, hyx] at h
        · have hxy' : x = y := Nat.le_antisymm (Nat.le_of_not_lt hyx) (Nat.le_of_not_lt hxy)
          subst hxy'
          simp only [strLt, if_neg (lt_irrefl x)] at h ⊢
          exact ih h

theorem strLt_total_eq {a b : Str} (h1 : strLt a b = false) (h2 : strLt b a = false) :
    a = b := by
  induction a generalizing b with
  | nil =>
    cases b with
    | nil => rfl
    | cons y ys => simp [strLt] at h1
  | cons x xs ih =>
    cases b with
    | nil => simp [strLt] at h2
    | cons y ys =>
      by_cases hxy : x < y
      · simp [strLt, hxy] at h1
      · by_cases hyx : y < x
        · simp [strLt, hyx] at h2
        · have hxy' : x = y := Nat.le_antisymm (Nat.le_of_not_lt hyx) (Nat.le_of_not_lt hxy)
          subst hxy'
          simp only [strLt, if_neg (lt_irrefl x)] at h1 h2
          exact congrArg (x :: ·) (ih h1 h2)

/-- 64-bit FNV-1a over the bytes of a key, as `hash/fnv`'s `New64a`
followed by `Write` and `Sum64`; machine overflow is the mod by `2 ^ 64`. -/
def fnv64 (s : Str) : Nat :=
  s.foldl (fun h b => ((h ^^^ b) * 1099511628211) % 18446744073709551616)
    14695981039346656037

namespace Cache

/-- CacheEntry of `modules/cache/cache.go`: `Expiry` and `LastAccess` are
`int64` Unix seconds, `Frequency` a `uint32` counter. -/
structure CacheEntry where
  Key : Str
  Value : Str
  Expiry : Int
  Frequency : Nat
  LastAccess : Int
deriving DecidableEq

/-- BTree.Get with comparator `entryCompare` on a key-ordered shard:
the first (unique) entry whose key equals the probe key. -/
def bget (k : Str) : List CacheEntry → Option CacheEntry
  | [] => none
  | e :: rest => if e.Key = k then some e else bget k rest

/-- BTree.Set with comparator `entryCompare`: insert in key order,
replacing an entry with an equal key. -/
def bset (x : CacheEntry) : List CacheEntry → List CacheEntry
  | [] => [x]
  | e :: rest =>
    if strLt x.Key e.Key then x :: e :: rest
    else if strLt e.Key x.Key then e :: bset x rest
    else x :: rest

/-- BTree.Delete with comparator `entryCompare`: remove the entry whose
key equals the given key, if present. -/
def bdel (k : Str) : List CacheEntry → List CacheEntry
  | [] => []
  | e :: rest => if e.Key = k then rest else e :: bdel k rest

theorem bget_bset (x : CacheEntry) (l : List CacheEntry) :
    bget x.Key (bset x l) = some x := by
  induction l with
  | nil => simp [bset, bget]
  | cons e rest ih =>
    by_cases h1 : strLt x.Key e.Key = true
    · simp [bset, h1, bget]
    · by_cases h2 : strLt e.Key x.Key = true
      · have hne : e.Key ≠ x.Key := by
          intro hEq
          rw [hEq, strLt_irrefl] at h2
          exact Bool.false_ne_true h2
        simp [bset, h1, h2, bget, hne, ih]
      · simp [bset, h1, h2, bget]

theorem length_bset_le (x : CacheEntry) (l : List CacheEntry) :
    (bset x l).length ≤ l.length + 1 := by
  induction l with
  | nil => simp [bset]
  | cons e rest ih =>
    by_cases h1 : strLt x.Key e.Key = true
    · simp [bset, h1]
    · by_cases h2 : strLt e.Key x.Key = true
      · simp only [bset, if_neg h1, if_pos h2, List.length_cons]
        omega
      · simp [bset, h1, h2]

theorem length_bdel_le (k : Str) (l : List CacheEntry) :
    (bdel k l).length ≤ l.length := by
  induction l with
  | nil => simp [bdel]
  | cons e rest ih =>
    by_cases h : e.Key = k
    · simp [bdel, h]
    · simp only [bdel, if_neg h, List.length_cons]
      omega

theorem length_bdel_mem {l : List CacheEntry} {x : CacheEntry} (hx : x ∈ l) :
    (bdel x.Key l).length + 1 = l.length := by
  induction l with
  | nil => cases hx
  | cons e rest ih =>
    by_cases h : e.Key = x.Key
    · simp [bdel, h]
    · have hx' : x ∈ rest := by
        rcases List.mem_cons.mp hx with h1 | h1
        · exact absurd (congrArg CacheEntry.Key h1.symm) h
        · exact h1
      have h2 := ih hx'
      simp only [bdel, if_neg h, List.length_cons]
      omega

/-- Shard of `modules/cache/cache.go`: a key-ordered collection of
entries (the btree, embedded as a list in key order) with its capacity.
The per-shard `sync.RWMutex` is not data; lock-protected sections are
atomic in this sequential embedding. -/
structure Shard where
  items : List CacheEntry
  maxItems : Nat
deriving DecidableEq

/-- Cache of `modules/cache/cache.go`. The Go struct holds a
pre-allocated `[maxShards]*Shard` array of which `activeShard` entries
are live, and `shardIndex` only ever addresses the live prefix; the live
prefix is embedded as the list `shards` (so `activeShard` is
`shards.length`). -/
structure Cache where
  shards : List Shard
  maxSize : Nat
deriving DecidableEq

def minShards : Nat := 256
def maxShards : Nat := 4096

/-- calculateOptimalShardCount: `runtime.NumCPU() * 64` clamped to
`[minShards, maxShards]`; the CPU count is an environment input. -/
def calculateOptimalShardCount (cpus : Nat) : Nat :=
  let sc := cpus * 64
  if sc < minShards then minShards
  else if sc > maxShards then maxShards
  else sc

/-- NewCache: a non-positive `maxSize` becomes 10000; every live shard
gets `maxItems = maxSize / shardCount`, raised to 100 when smaller. -/
def NewCache (cpus : Nat) (maxSize : Int) : Cache :=
  let m : Nat := if maxSize ≤ 0 then 10000 else maxSize.toNat
  let n := calculateOptimalShardCount cpus
  let shardSize := m / n
  let shardSize := if shardSize < 100 then 100 else shardSize
  { shards := List.replicate n { items := [], maxItems := shardSize },
    maxSize := m }

/-- shardIndex: FNV-1a of the key modulo the live shard count. -/
def shardIndex (c : Cache) (k : Str) : Nat :=
  fnv64 k % c.shards.length

/-- eviction candidate test of `Cache.evict` in `modules/cache/cache.go`:
`now > entry.Expiry || (now - entry.LastAccess > 3600 && entry.Frequency < 10)`. -/
def evictPred (now : Int) (e : CacheEntry) : Bool :=
  now > e.Expiry || (now - e.LastAccess > 3600 && e.Frequency < 10)

/-- eviction candidate rule as the specification words it (expired, or
never reused, or stale), stated for comparison with `evictPred`; this is
also the rule of the older variant in `src/unnamed/part_007`. -/
def specEvictPred (now : Int) (e : CacheEntry) : Bool :=
  now > e.Expiry || e.Frequency = 1 || now - e.LastAccess > 3600

/-- candidate collection loop of `Cache.evict`: `BTree.Ascend` from the
zero pivot visits entries in key order; the callback appends the entry
to `candidates` when `evictPred` holds and keeps scanning while
`len(candidates) < maxEvict`. -/
def collectCands (now : Int) (maxEvict : Nat) :
    List CacheEntry → List CacheEntry → List CacheEntry
  | [], acc => acc.reverse
  | e :: rest, acc =>
    let acc' := if evictPred now e then e :: acc else acc
    if acc'.length < maxEvict then collectCands now maxEvict rest acc'
    else acc'.reverse

/-- Cache.evict: bound the pass at a quarter of the shard, collect
candidates in scan order, then delete every collected candidate. -/
def evict (now : Int) (sh : Shard) : Shard :=
  let maxEvict := sh.items.length / 4
  let candidates := collectCands now maxEvict sh.items []
  { sh with items := candidates.foldl (fun l e => bdel e.Key l) sh.items }

/-- effect of `Cache.Set` on the shard that owns the key: evict first
when the shard is at or over capacity, then insert or overwrite the
fresh entry (`Frequency = 1`, `LastAccess = now`, `Expiry` the Unix
value of the given expiry time). -/
def setShard (now : Int) (k v : Str) (expiryUnix : Int) (sh : Shard) : Shard :=
  let sh1 := if sh.items.length ≥ sh.maxItems then evict now sh else sh
  { sh1 with
    items := bset { Key := k, Value := v, Expiry := expiryUnix,
                    Frequency := 1, LastAccess := now } sh1.items }

/-- Cache.Set: route the key to its shard and apply `setShard` there. -/
def Set (c : Cache) (now : Int) (k v : Str) (expiryUnix : Int) : Cache :=
  let idx := shardIndex c k
  { c with shards := c.shards.set idx (setShard now k v expiryUnix (c.shards.getD idx ⟨[], 0⟩)) }

/-- Cache.Get: look the key up in its shard; a missing entry or an
entry with `now > Expiry` is a miss `(nil, false)`; otherwise the value
is returned. The expired-entry removal and the frequency/recency bump
are fired on separate goroutines (`cleanupEntry`, `updateEntryStats`)
and do not change what this call returns. -/
def Get (c : Cache) (now : Int) (k : Str) : Option Str × Bool :=
  let sh := c.shards.getD (shardIndex c k) ⟨[], 0⟩
  match bget k sh.items with
  | none => (none, false)
  | some e => if now > e.Expiry then (none, false) else (some e.Value, true)

/-- Cache.cleanupEntry, the deferred removal scheduled by `Get` for an
expired entry: re-read the current entry for the key and delete it only
when its `Expiry` still equals the observed one (so a concurrent `Set`
is not clobbered). -/
def cleanupEntry (sh : Shard) (e : CacheEntry) : Shard :=
  match bget e.Key sh.items with
  | some cur =>
    if cur.Expiry = e.Expiry then { sh with items := bdel e.Key sh.items } else sh
  | none => sh

theorem bget_some_key {k : Str} {e : CacheEntry} :
    ∀ {l : List CacheEntry}, bget k l = some e → e.Key = k := by
  intro l
  induction l with
  | nil => intro h; cases h
  | cons x rest ih =>
    intro h
    by_cases hx : x.Key = k
    · simp only [bget, if_pos hx] at h
      cases h
      exact hx
    · simp only [bget, if_neg hx] at h
      exact ih h

theorem getD_set_self {α : Type} (l : List α) (i : Nat) (x d : α)
    (h : i < l.length) : (l.set i x).getD i d = x := by
  induction l generalizing i with
  | nil => cases h
  | cons a rest ih =>
    cases i with
    | zero => rfl
    | succ j => exact ih j (Nat.lt_of_succ_lt_succ h)

theorem collect_acc_mem (now : Int) (m : Nat) :
    ∀ (items acc : List CacheEntry) (x : CacheEntry), x ∈ acc →
      x ∈ collectCands now m items acc := by
  intro items
  induction items with
  | nil => intro acc x hx; simpa [collectCands] using hx
  | cons e rest ih =>
    intro acc x hx
    simp only [collectCands]
    by_cases hp : evictPred now e = true
    · simp only [if_pos hp]
      by_cases hc : (e :: acc).length < m
      · simp only [if_pos hc]
        exact ih (e :: acc) x (List.mem_cons_of_mem e hx)
      · simp only [if_neg hc, List.mem_reverse]
        exact List.mem_cons_of_mem e hx
    · simp only [if_neg hp]
      by_cases hc : acc.length < m
      · simp only [if_pos hc]
        exact ih acc x hx
      · simp only [if_neg hc, List.mem_reverse]
        exact hx

theorem collect_mem (now : Int) (m : Nat) :
    ∀ (items acc : List CacheEntry) (x : CacheEntry),
      x ∈ collectCands now m items acc → x ∈ items ∨ x ∈ acc := by
  intro items
  induction items with
  | nil =>
    intro acc x hx
    simp only [collectCands, List.mem_reverse] at hx
    exact Or.inr hx
  | cons e rest ih =>
    intro acc x hx
    simp only [collectCands] at hx
    by_cases hp : evictPred now e = true
    · rw [if_pos hp] at hx
      by_cases hc : (e :: acc).length < m
      · rw [if_pos hc] at hx
        rcases ih (e :: acc) x hx with h | h
        · exact Or.inl (List.mem_cons_of_mem e h)
        · rcases List.mem_cons.mp h with h1 | h1
          · exact Or.inl (h1 ▸ List.mem_cons_self e rest)
          · exact Or.inr h1
      · rw [if_neg hc, List.mem_reverse] at hx
        rcases List.mem_cons.mp hx with h1 | h1
        · exact Or.inl (h1 ▸ List.mem_cons_self e rest)
        · exact Or.inr h1
    · rw [if_neg hp] at hx
      by_cases hc : acc.length < m
      · rw [if_pos hc] at hx
        rcases ih acc x hx with h | h
        · exact Or.inl (List.mem_cons_of_mem e h)
        · exact Or.inr h
      · rw [if_neg hc, List.mem_reverse] at hx
        exact Or.inr hx

theorem collect_sound (now : Int) (m : Nat) :
    ∀ (items acc : List CacheEntry), (∀ e ∈ acc, evictPred now e = true) →
      ∀ x ∈ collectCands now m items acc, evictPred now x = true := by
  intro items
  induction items with
  | nil =>
    intro acc hacc x hx
    simp only [collectCands, List.mem_reverse] at hx
    exact hacc x hx
  | cons e rest ih =>
    intro acc hacc x hx
    simp only [collectCands] at hx
    by_cases hp : evictPred now e = true
    · rw [if_pos hp] at hx
      have hacc' : ∀ y ∈ e :: acc, evictPred now y = true := by
        intro y hy
        rcases List.mem_cons.mp hy with h1 | h1
        · exact h1 ▸ hp
        · exact hacc y h1
      by_cases hc : (e :: acc).length < m
      · rw [if_pos hc] at hx
        exact ih (e :: acc) hacc' x hx
      · rw [if_neg hc, List.mem_reverse] at hx
        exact hacc' x hx
    · rw [if_neg hp] at hx
      by_cases hc : acc.length < m
      · rw [if_pos hc] at hx
        exact ih acc hacc x hx
      · rw [if_neg hc, List.mem_reverse] at hx
        exact hacc x hx

theorem collect_complete (now : Int) (m : Nat) :
    ∀ (items acc : List CacheEntry),
      (collectCands now m items acc).length < m →
      ∀ e ∈ items, evictPred now e = true → e ∈ collectCands now m items acc := by
  intro items
  induction items with
  | nil => intro acc _ e he; cases he
  | cons x rest ih =>
    intro acc hlen e he hp
    simp only [collectCands] at hlen ⊢
    by_cases hx : evictPred now x = true
    · rw [if_pos hx] at hlen ⊢
      by_cases hc : (x :: acc).length < m
      · rw [if_pos hc] at hlen ⊢
        rcases List.mem_cons.mp he with h1 | h1
        · exact collect_acc_mem now m rest (x :: acc) e
            (h1 ▸ List.mem_cons_self x acc)
        · exact ih (x :: acc) hlen e h1 hp
      · rw [if_neg hc] at hlen
        rw [List.length_reverse] at hlen
        omega
    · rw [if_neg hx] at hlen ⊢
      by_cases hc : acc.length < m
      · rw [if_pos hc] at hlen ⊢
        rcases List.mem_cons.mp he with h1 | h1
        · rw [h1] at hp
          exact absurd hp hx
        · exact ih acc hlen e h1 hp
      · rw [if_neg hc] at hlen
        rw [List.length_reverse] at hlen
        omega

theorem collect_nonempty (now : Int) (m : Nat) (hm : 1 ≤ m) :
    ∀ (items acc : List CacheEntry),
      ((∃ e ∈ items, evictPred now e = true) ∨ acc ≠ []) →
      collectCands now m items acc ≠ [] := by
  intro items
  induction items with
  | nil =>
    intro acc h
    rcases h with ⟨e, he, _⟩ | h
    · cases he
    · simpa [collectCands] using h
  | cons x rest ih =>
    intro acc h
    simp only [collectCands]
    by_cases hx : evictPred now x = true
    · rw [if_pos hx]
      by_cases hc : (x :: acc).length < m
      · rw [if_pos hc]
        exact ih (x :: acc) (Or.inr (by simp))
      · rw [if_neg hc]
        simp
    · rw [if_neg hx]
      by_cases hc : acc.length < m
      · rw [if_pos hc]
        refine ih acc ?_
        rcases h with ⟨e, he, hp⟩ | hne
        · rcases List.mem_cons.mp he with h1 | h1
          · rw [h1] at hp
            exact absurd hp hx
          · exact Or.inl ⟨e, h1, hp⟩
        · exact Or.inr hne
      · rw [if_neg hc]
        have : acc ≠ [] := by
          intro hnil
          rw [hnil] at hc
          simp at hc
          omega
        simpa using this

theorem foldl_bdel_length_le :
    ∀ (cands l : List CacheEntry),
      (cands.foldl (fun acc e => bdel e.Key acc) l).length ≤ l.length := by
  intro cands
  induction cands with
  | nil => intro l; simp
  | cons c cs ih =>
    intro l
    calc (List.foldl (fun acc e => bdel e.Key acc) (bdel c.Key l) cs).length
        ≤ (bdel c.Key l).length := ih (bdel c.Key l)
      _ ≤ l.length := length_bdel_le c.Key l

theorem foldl_bdel_length_lt (c : CacheEntry) (cs l : List CacheEntry)
    (hc : c ∈ l) :
    ((c :: cs).foldl (fun acc e => bdel e.Key acc) l).length + 1 ≤ l.length := by
  have h1 := length_bdel_mem hc
  have h2 := foldl_bdel_length_le cs (bdel c.Key l)
  simp only [List.foldl_cons]
  omega

theorem evict_removes (now : Int) (sh : Shard) (h4 : 4 ≤ sh.items.length)
    (hex : ∃ e ∈ sh.items, evictPred now e = true) :
    (evict now sh).items.length < sh.items.length := by
  have hm : 1 ≤ sh.items.length / 4 := by omega
  have hne := collect_nonempty now (sh.items.length / 4) hm sh.items [] (Or.inl hex)
  rcases hcand : collectCands now (sh.items.length / 4) sh.items [] with _ | ⟨c0, cs⟩
  · exact absurd hcand hne
  · have hc0 : c0 ∈ sh.items := by
      have := collect_mem now (sh.items.length / 4) sh.items [] c0
        (hcand ▸ List.mem_cons_self c0 cs)
      simpa using this
    have hfold := foldl_bdel_length_lt c0 cs sh.items hc0
    simp only [evict, hcand]
    omega

theorem calcShard_ge (cpus : Nat) : 256 ≤ calculateOptimalShardCount cpus := by
  simp only [calculateOptimalShardCount, minShards, maxShards]
  split
  · omega
  · split <;> omega

end Cache

namespace Claims

open Cache

/-- C5: for all keys `k` and values `v`, `Set(k, v, expiresAt)` with a
future expiry followed, with no intervening operations and before the
expiry elapses, by `Get(k)` returns `(v, true)`. -/
theorem C5_set_then_get (c : Cache.Cache) (now1 now2 : Int) (k v : Str) (expiry : Int)
    (h0 : 0 < c.shards.length) (hfut : now1 < expiry) (hbefore : now2 ≤ expiry) :
    Get (Cache.Set c now1 k v expiry) now2 k = (some v, true) := by
  have hidx : fnv64 k % c.shards.length < c.shards.length := Nat.mod_lt _ h0
  have hb : ∀ sh : Shard,
      bget k (setShard now1 k v expiry sh).items = some ⟨k, v, expiry, 1, now1⟩ := by
    intro sh
    exact bget_bset ⟨k, v, expiry, 1, now1⟩ _
  simp only [Get, Cache.Set, shardIndex, List.length_set]
  rw [getD_set_self _ _ _ _ hidx, hb]
  show (if now2 > expiry then ((none : Option Str), false) else (some v, true))
      = (some v, true)
  rw [if_neg (not_lt.mpr hbefore)]

/-- C5 witness: a concrete `Set` then `Get` round trip on a fresh cache. -/
theorem C5_witness :
    Get (Cache.Set (NewCache 4 0) 10 [97] [1, 2] 100) 20 [97] = (some [1, 2], true) :=
  C5_set_then_get (NewCache 4 0) 10 20 [97] [1, 2] 100 (by decide) (by decide) (by decide)

/-- C4: an entry whose expiry is past at the time `Get` runs is never
returned as a hit: `Get` answers `(nil, false)`, and the physical
removal is left to the separately scheduled `cleanupEntry`, which
deletes the entry (after re-checking it is the same one). -/
theorem C4_expired_never_hit (c : Cache.Cache) (now : Int) (k : Str) (e : CacheEntry)
    (hmem : bget k ((c.shards.getD (shardIndex c k) ⟨[], 0⟩).items) = some e)
    (hexp : now > e.Expiry) :
    Get c now k = (none, false) ∧
    cleanupEntry (c.shards.getD (shardIndex c k) ⟨[], 0⟩) e =
      { c.shards.getD (shardIndex c k) ⟨[], 0⟩ with
        items := bdel k ((c.shards.getD (shardIndex c k) ⟨[], 0⟩).items) } := by
  have hkey := bget_some_key hmem
  constructor
  · simp only [Get, hmem]
    rw [if_pos hexp]
  · simp only [cleanupEntry, hkey, hmem]
    simp

/-- C4 witness: a one-shard cache holding an entry expired at time 20. -/
theorem C4_witness :
    Get ⟨[⟨[⟨[97], [5], 10, 1, 0⟩], 100⟩], 100⟩ 20 [97] = (none, false) ∧
    cleanupEntry ((Cache.Cache.mk [⟨[⟨[97], [5], 10, 1, 0⟩], 100⟩] 100).shards.getD
        (shardIndex ⟨[⟨[⟨[97], [5], 10, 1, 0⟩], 100⟩], 100⟩ [97]) ⟨[], 0⟩) ⟨[97], [5], 10, 1, 0⟩ =
      { (Cache.Cache.mk [⟨[⟨[97], [5], 10, 1, 0⟩], 100⟩] 100).shards.getD
          (shardIndex ⟨[⟨[⟨[97], [5], 10, 1, 0⟩], 100⟩], 100⟩ [97]) ⟨[], 0⟩ with
        items := bdel [97] (((Cache.Cache.mk [⟨[⟨[97], [5], 10, 1, 0⟩], 100⟩] 100).shards.getD
          (shardIndex ⟨[⟨[⟨[97], [5], 10, 1, 0⟩], 100⟩], 100⟩ [97]) ⟨[], 0⟩).items) } :=
  C4_expired_never_hit ⟨[⟨[⟨[97], [5], 10, 1, 0⟩], 100⟩], 100⟩ 20 [97]
    ⟨[97], [5], 10, 1, 0⟩ (by decide) (by decide)

/-- C10: `NewCache` clamps from below: non-positive `maxSize` becomes
10000, every shard's `maxItems` is `maxSize / shardCount` raised to at
least 100, and for every small `maxSize` (one below `100 * shardCount`)
the shards can hold strictly more than `maxSize` entries in total, while
a `Set` on a below-capacity shard performs no eviction at all. -/
theorem C10_newcache_clamps (cpus : Nat) (maxSize : Int) :
    (maxSize ≤ 0 → (NewCache cpus maxSize).maxSize = 10000) ∧
    (∀ sh ∈ (NewCache cpus maxSize).shards,
      sh.maxItems =
        max ((NewCache cpus maxSize).maxSize / (NewCache cpus maxSize).shards.length) 100) ∧
    ((NewCache cpus maxSize).maxSize < 100 * (NewCache cpus maxSize).shards.length →
      ((NewCache cpus maxSize).shards.map Shard.maxItems).sum =
          100 * (NewCache cpus maxSize).shards.length ∧
        (NewCache cpus maxSize).maxSize <
          ((NewCache cpus maxSize).shards.map Shard.maxItems).sum) ∧
    (∀ (sh : Shard) (now : Int) (k v : Str) (ex : Int),
      sh.items.length < sh.maxItems →
      (setShard now k v ex sh).items = bset ⟨k, v, ex, 1, now⟩ sh.items) := by
  have hn : 0 < calculateOptimalShardCount cpus :=
    lt_of_lt_of_le (by norm_num) (calcShard_ge cpus)
  refine ⟨?_, ?_, ?_, ?_⟩
  · intro h
    simp [NewCache, h]
  · intro sh hsh
    simp only [NewCache, List.length_replicate] at hsh ⊢
    have := List.eq_of_mem_replicate hsh
    subst this
    by_cases hlt :
        (if maxSize ≤ 0 then (10000 : Nat) else maxSize.toNat) /
          calculateOptimalShardCount cpus < 100
    · rw [if_pos hlt]
      exact (Nat.max_eq_right (Nat.le_of_lt hlt)).symm
    · rw [if_neg hlt]
      exact (Nat.max_eq_left (Nat.le_of_not_lt hlt)).symm
  · intro hsmall
    simp only [NewCache, List.length_replicate] at hsmall ⊢
    have hdiv :
        (if maxSize ≤ 0 then (10000 : Nat) else maxSize.toNat) /
          calculateOptimalShardCount cpus < 100 :=
      Nat.div_lt_of_lt_mul (by omega)
    rw [if_pos hdiv]
    have hproj : (Shard.mk ([] : List CacheEntry) 100).maxItems = 100 := rfl
    constructor
    · rw [List.map_replicate, List.sum_replicate, smul_eq_mul, hproj]
      omega
    · rw [List.map_replicate, List.sum_replicate, smul_eq_mul, hproj]
      omega
  · intro sh now k v ex h
    simp only [setShard]
    rw [if_neg (not_le.mpr h)]

/-- C10 witness: `NewCache 4 50` has 256 shards of `maxItems = 100`,
so it admits 25600 entries in total, far above `maxSize = 50`. -/
theorem C10_witness :
    ((NewCache 4 50).shards.map Shard.maxItems).sum = 100 * (NewCache 4 50).shards.length ∧
    (NewCache 4 50).maxSize < ((NewCache 4 50).shards.map Shard.maxItems).sum :=
  (C10_newcache_clamps 4 50).2.2.1 (by decide)

/-- concrete shard for C3: entry `[97]` has `Frequency = 1` but is
neither expired nor stale at time 1000; the other three entries match no
condition either. -/
def shardC3 : Shard :=
  ⟨[⟨[97], [], 1000000000, 1, 1000⟩, ⟨[98], [], 1000000000, 10, 1000⟩,
    ⟨[99], [], 1000000000, 10, 1000⟩, ⟨[100], [], 1000000000, 10, 1000⟩], 4⟩

/-- C3 counterexample: the entry with `accessFrequency == 1` satisfies
the spec's disjunctive candidate rule, yet an eviction pass over its
shard collects nothing and removes nothing — in
`modules/cache/cache.go` a never-reused entry is not a candidate unless
it is also stale. -/
theorem C3_counterexample :
    specEvictPred 1000 ⟨[97], [], 1000000000, 1, 1000⟩ = true ∧
    (⟨[97], [], 1000000000, 1, 1000⟩ : CacheEntry) ∈ shardC3.items ∧
    evictPred 1000 ⟨[97], [], 1000000000, 1, 1000⟩ = false ∧
    evict 1000 shardC3 = shardC3 := by
  refine ⟨rfl, by decide, rfl, ?_⟩
  decide

/-- C3 amended: during eviction an entry is collected as a candidate
exactly when `now > expiresAt`, or it is stale
(`now - lastAccessedAt > 3600`) and `accessFrequency < 10`; collection
is sound always, complete whenever the pass's candidate cap was not
reached, and eviction deletes precisely the collected candidates. -/
theorem C3_amended (now : Int) (sh : Shard) :
    (∀ e ∈ collectCands now (sh.items.length / 4) sh.items [],
      (now > e.Expiry ∨ (now - e.LastAccess > 3600 ∧ e.Frequency < 10))) ∧
    ((collectCands now (sh.items.length / 4) sh.items []).length < sh.items.length / 4 →
      ∀ e ∈ sh.items, evictPred now e = true →
        e ∈ collectCands now (sh.items.length / 4) sh.items []) ∧
    (evict now sh).items =
      (collectCands now (sh.items.length / 4) sh.items []).foldl
        (fun l e => bdel e.Key l) sh.items := by
  refine ⟨?_, ?_, rfl⟩
  · intro e he
    have h := collect_sound now (sh.items.length / 4) sh.items [] (by simp) e he
    simp only [evictPred, Bool.or_eq_true, Bool.and_eq_true, decide_eq_true_eq] at h
    exact h
  · intro hlen e he hp
    exact collect_complete now (sh.items.length / 4) sh.items [] hlen e he hp

/-- concrete shard for the C3 amended witness: eight entries, the first
expired at time 5000, the rest matching no eviction condition. -/
def shardC3w : Shard :=
  ⟨[⟨[97], [], 4000, 10, 4900⟩, ⟨[98], [], 1000000000, 10, 4900⟩,
    ⟨[99], [], 1000000000, 10, 4900⟩, ⟨[100], [], 1000000000, 10, 4900⟩,
    ⟨[101], [], 1000000000, 10, 4900⟩, ⟨[102], [], 1000000000, 10, 4900⟩,
    ⟨[103], [], 1000000000, 10, 4900⟩, ⟨[104], [], 1000000000, 10, 4900⟩], 8⟩

/-- C3 amended witness: on that shard every collected candidate matches
the code's predicate, and since the cap (2) was not reached, the one
expired entry is among the candidates. -/
theorem C3_amended_witness :
    (∀ e ∈ collectCands 5000 (shardC3w.items.length / 4) shardC3w.items [],
      ((5000 : Int) > e.Expiry ∨ ((5000 : Int) - e.LastAccess > 3600 ∧ e.Frequency < 10))) ∧
    (⟨[97], [], 4000, 10, 4900⟩ : CacheEntry) ∈
      collectCands 5000 (shardC3w.items.length / 4) shardC3w.items [] :=
  ⟨(C3_amended 5000 shardC3w).1,
    (C3_amended 5000 shardC3w).2.1 (by decide) ⟨[97], [], 4000, 10, 4900⟩
      (by decide) (by decide)⟩

/-- the 101 three-byte keys all hash to shard 5 of a 256-shard cache
under FNV-1a mod 256. -/
def keys101 : List Str :=
  [[48, 48, 74], [48, 51, 115], [48, 67, 99], [48, 68, 54], [48, 74, 120], [48, 77, 97],
   [48, 78, 52], [48, 83, 83], [48, 89, 101], [48, 97, 109], [48, 98, 48], [48, 101, 89],
   [48, 104, 66], [48, 107, 107], [48, 116, 70], [48, 119, 111], [48, 120, 50], [49, 49, 48],
   [49, 50, 109], [49, 54, 89], [49, 56, 107], [49, 70, 105], [49, 76, 119], [49, 79, 78],
   [49, 85, 76], [49, 89, 56], [49, 90, 117], [49, 99, 74], [49, 105, 72], [49, 110, 113],
   [49, 119, 86], [50, 49, 75], [50, 52, 116], [50, 67, 69], [50, 70, 110], [50, 71, 49],
   [50, 73, 51], [50, 80, 88], [50, 87, 65], [50, 89, 67], [50, 90, 90], [50, 98, 82],
   [50, 100, 100], [50, 101, 55], [50, 110, 102], [50, 114, 98], [50, 115, 53], [50, 117, 71],
   [50, 120, 80], [51, 48, 49], [51, 49, 110], [51, 52, 69], [51, 67, 116], [51, 70, 75],
   [51, 72, 57], [51, 73, 118], [51, 76, 77], [51, 87, 104], [51, 90, 79], [51, 98, 103],
   [51, 100, 85], [51, 111, 112], [51, 114, 87], [51, 117, 114], [51, 120, 73], [52, 50, 68],
   [52, 52, 50], [52, 56, 70], [52, 69, 117], [52, 70, 56], [52, 74, 76], [52, 80, 78],
   [52, 83, 119], [52, 89, 105], [52, 98, 84], [52, 104, 86], [52, 113, 113], [52, 118, 72],
   [53, 48, 103], [53, 54, 85], [53, 65, 100], [53, 71, 82], [53, 75, 102], [53, 80, 71],
   [53, 86, 53], [53, 87, 98], [53, 90, 121], [53, 98, 49], [53, 99, 110], [53, 102, 69],
   [53, 108, 51], [53, 114, 65], [53, 117, 88], [53, 121, 108], [54, 50, 102], [54, 56, 100],
   [54, 57, 55], [54, 68, 112], [54, 73, 103], [54, 79, 85], [54, 83, 73]]

/-- cache obtained by setting 101 colliding, far-future, freshly
accessed keys at time 1000 on `NewCache 4 10000` (256 shards, each with
`maxItems = 100`). -/
def cacheC1 : Cache.Cache :=
  keys101.foldl (fun c k => Cache.Set c 1000 k [] 1000000000) (NewCache 4 10000)

/-- C1 counterexample: after the 101st `Set` on shard 5 the shard holds
101 entries while `maxItems = 100` — the eviction pass preceding the
insert matches no entry (none expired, none stale), removes nothing,
and the shard ends above `maxItems`. -/
theorem C1_counterexample :
    (cacheC1.shards.getD 5 ⟨[], 0⟩).maxItems = 100 ∧
    (cacheC1.shards.getD 5 ⟨[], 0⟩).items.length = 101 ∧
    ¬((cacheC1.shards.getD 5 ⟨[], 0⟩).items.length ≤
        (cacheC1.shards.getD 5 ⟨[], 0⟩).maxItems) := by
  refine ⟨by decide, by decide, by decide⟩

/-- C1 amended: a `Set` on a shard strictly below capacity leaves it at
or below `maxItems`; a `Set` on a shard exactly at capacity (of at
least 4) leaves it at or below `maxItems` provided at least one entry
matches the eviction predicate of `modules/cache/cache.go` — when no
entry matches, eviction removes nothing and the shard exceeds
`maxItems` (see the counterexample). -/
theorem C1_amended (c : Cache.Cache) (now : Int) (k v : Str) (expiry : Int)
    (h0 : 0 < c.shards.length) :
    ((c.shards.getD (shardIndex c k) ⟨[], 0⟩).items.length <
        (c.shards.getD (shardIndex c k) ⟨[], 0⟩).maxItems →
      ((Cache.Set c now k v expiry).shards.getD (shardIndex c k) ⟨[], 0⟩).items.length ≤
        (c.shards.getD (shardIndex c k) ⟨[], 0⟩).maxItems) ∧
    ((c.shards.getD (shardIndex c k) ⟨[], 0⟩).items.length =
        (c.shards.getD (shardIndex c k) ⟨[], 0⟩).maxItems →
      4 ≤ (c.shards.getD (shardIndex c k) ⟨[], 0⟩).maxItems →
      (∃ e ∈ (c.shards.getD (shardIndex c k) ⟨[], 0⟩).items, evictPred now e = true) →
      ((Cache.Set c now k v expiry).shards.getD (shardIndex c k) ⟨[], 0⟩).items.length ≤
        (c.shards.getD (shardIndex c k) ⟨[], 0⟩).maxItems) ∧
    ((c.shards.getD (shardIndex c k) ⟨[], 0⟩).items.length =
        (c.shards.getD (shardIndex c k) ⟨[], 0⟩).maxItems →
      4 ≤ (c.shards.getD (shardIndex c k) ⟨[], 0⟩).maxItems →
      (∃ e ∈ (c.shards.getD (shardIndex c k) ⟨[], 0⟩).items, evictPred now e = true) →
      (evict now (c.shards.getD (shardIndex c k) ⟨[], 0⟩)).items.length <
        (c.shards.getD (shardIndex c k) ⟨[], 0⟩).items.length) := by
  have hidx : shardIndex c k < c.shards.length := Nat.mod_lt _ h0
  have hset : (Cache.Set c now k v expiry).shards.getD (shardIndex c k) ⟨[], 0⟩ =
      setShard now k v expiry (c.shards.getD (shardIndex c k) ⟨[], 0⟩) := by
    simp only [Cache.Set]
    exact getD_set_self _ _ _ _ hidx
  set sh := c.shards.getD (shardIndex c k) ⟨[], 0⟩ with hshdef
  rw [hset]
  refine ⟨?_, ?_, ?_⟩
  · intro hlt
    simp only [setShard]
    rw [if_neg (not_le.mpr hlt)]
    have := length_bset_le ⟨k, v, expiry, 1, now⟩ sh.items
    omega
  · intro heq h4 hex
    simp only [setShard]
    rw [if_pos (le_of_eq heq.symm)]
    have hrem := evict_removes now sh (by omega) hex
    have hbset := length_bset_le ⟨k, v, expiry, 1, now⟩ (evict now sh).items
    show (bset ⟨k, v, expiry, 1, now⟩ (evict now sh).items).length ≤ sh.maxItems
    omega
  · intro heq h4 hex
    exact evict_removes now sh (by omega) hex

/-- C1 amended witness: a four-entry shard at capacity with one expired
entry stays within `maxItems` after one more `Set`. -/
theorem C1_amended_witness :
    ((Cache.Set ⟨[⟨[⟨[97], [], 10, 5, 1000⟩, ⟨[98], [], 1000000000, 10, 1000⟩,
        ⟨[99], [], 1000000000, 10, 1000⟩, ⟨[100], [], 1000000000, 10, 1000⟩], 4⟩], 100⟩
        5000 [101] [] 1000000000).shards.getD
        (shardIndex ⟨[⟨[⟨[97], [], 10, 5, 1000⟩, ⟨[98], [], 1000000000, 10, 1000⟩,
          ⟨[99], [], 1000000000, 10, 1000⟩, ⟨[100], [], 1000000000, 10, 1000⟩], 4⟩], 100⟩ [101])
        ⟨[], 0⟩).items.length ≤
      ((Cache.Cache.mk [⟨[⟨[97], [], 10, 5, 1000⟩, ⟨[98], [], 1000000000, 10, 1000⟩,
        ⟨[99], [], 1000000000, 10, 1000⟩, ⟨[100], [], 1000000000, 10, 1000⟩], 4⟩] 100).shards.getD
        (shardIndex ⟨[⟨[⟨[97], [], 10, 5, 1000⟩, ⟨[98], [], 1000000000, 10, 1000⟩,
          ⟨[99], [], 1000000000, 10, 1000⟩, ⟨[100], [], 1000000000, 10, 1000⟩], 4⟩], 100⟩ [101])
        ⟨[], 0⟩).maxItems :=
  (C1_amended ⟨[⟨[⟨[97], [], 10, 5, 1000⟩, ⟨[98], [], 1000000000, 10, 1000⟩,
      ⟨[99], [], 1000000000, 10, 1000⟩, ⟨[100], [], 1000000000, 10, 1000⟩], 4⟩], 100⟩
    5000 [101] [] 1000000000 (by decide)).2.1 (by decide) (by decide)
    ⟨⟨[97], [], 10, 5, 1000⟩, by decide, by decide⟩

end Claims

namespace Router

/-- FileInfo of `modules/router`: only the dist path matters to routing. -/
structure FileInfo where
  DistPath : Str
deriving DecidableEq

/-- RadixNode of `modules/router`: one `/`-separated path segment, a
small children list scanned linearly, and an optional artifact. -/
inductive RadixNode where
  | mk (Path : Str) (Children : List RadixNode) (info : Option FileInfo)

def RadixNode.Path : RadixNode → Str
  | .mk p _ _ => p

def RadixNode.Children : RadixNode → List RadixNode
  | .mk _ c _ => c

def RadixNode.info : RadixNode → Option FileInfo
  | .mk _ _ i => i

/-- findChild: linear scan of the children list for an exact segment
match. -/
def findChild (children : List RadixNode) (seg : Str) : Option RadixNode :=
  children.find? (fun ch => ch.Path == seg)

/-- replace the first child whose segment matches (the Go code mutates
the found child through its pointer), appending a new child at the end
when none matches (the Go code appends then mutates). -/
def setChild (seg : Str) (c' : RadixNode) : List RadixNode → List RadixNode
  | [] => [c']
  | ch :: rest => if ch.Path == seg then c' :: rest else ch :: setChild seg c' rest

/-- RadixNode.Insert: walk the segments, creating missing children,
and attach the artifact at the final node. -/
def Insert (fi : FileInfo) : List Str → RadixNode → RadixNode
  | [], n => .mk n.Path n.Children (some fi)
  | s :: rest, n =>
    let child := (findChild n.Children s).getD (.mk s [] none)
    .mk n.Path (setChild s (Insert fi rest child) n.Children) n.info

/-- segmentation loop of `Router.findRoute`: the `start`/`end` cursor
pair emits every maximal nonempty run of bytes other than `/` (byte
47), in order; the accumulator holds the current run reversed. -/
def segsAcc : Str → Str → List Str
  | [], acc => if acc.isEmpty then [] else [acc.reverse]
  | b :: rest, acc =>
    if b = 47 then
      if acc.isEmpty then segsAcc rest [] else acc.reverse :: segsAcc rest []
    else segsAcc rest (b :: acc)

def segments (path : Str) : List Str := segsAcc path []

/-- descent of `findRoute`: at each segment, linearly scan the current
node's children for an exact match; no match returns nil, and the final
node's artifact (possibly nil) is the answer. -/
def walk : List Str → RadixNode → Option FileInfo
  | [], n => n.info
  | s :: rest, n =>
    match findChild n.Children s with
    | none => none
    | some ch => walk rest ch

/-- Router of `modules/router`: the root node (the `sync.RWMutex`
protects an atomic root swap, not routine reads). -/
structure Router where
  root : RadixNode

/-- Router.findRoute: a path of length at most 1 short-circuits to the
root's artifact without looking at the path's bytes; otherwise the
cursor loop walks the segments from the root. -/
def findRoute (r : Router) (path : Str) : Option FileInfo :=
  if path.length ≤ 1 then r.root.info else walk (segments path) r.root

/-- Router.Route: nil artifact means `("", false)`. -/
def Route (r : Router) (path : Str) : Str × Bool :=
  match findRoute r path with
  | none => ([], false)
  | some fi => (fi.DistPath, true)

end Router

namespace Claims

open Router

/-- C7: with `info` inserted at segments `a/b/c` into an empty root,
`Route "/a/b/c"` finds the artifact's location, `Route "/a/b"` stops at
an intermediate node with no artifact and reports not found, and
`Route "/a/x"` fails on the unmatched segment `x` — both misses return
`("", false)` rather than an error. -/
theorem C7_router_examples (loc : Str) :
    Route ⟨Insert ⟨loc⟩ [[97], [98], [99]] (.mk [] [] none)⟩ [47, 97, 47, 98, 47, 99] =
        (loc, true) ∧
    Route ⟨Insert ⟨loc⟩ [[97], [98], [99]] (.mk [] [] none)⟩ [47, 97, 47, 98] =
        ([], false) ∧
    Route ⟨Insert ⟨loc⟩ [[97], [98], [99]] (.mk [] [] none)⟩ [47, 97, 47, 120] =
        ([], false) :=
  ⟨rfl, rfl, rfl⟩

/-- C9: any path of length at most 1 — the empty string, `/`, or any
single byte — resolves to the root node's artifact without the path's
content or any child being consulted, so when the root carries an
artifact, `Route "a"` succeeds even though no route for `a` exists. -/
theorem C9_short_path_hits_root (r : Router.Router) (path : Str) (fi : FileInfo)
    (hlen : path.length ≤ 1) (hroot : r.root.info = some fi) :
    Route r path = (fi.DistPath, true) := by
  simp only [Route, findRoute, if_pos hlen, hroot]

/-- C9 witness: a router whose root holds location `dist` and has no
children answers `Route "a"` with `(dist, true)`. -/
theorem C9_witness :
    Route ⟨.mk [] [] (some ⟨[100, 105, 115, 116]⟩)⟩ [97] = ([100, 105, 115, 116], true) :=
  C9_short_path_hits_root ⟨.mk [] [] (some ⟨[100, 105, 115, 116]⟩)⟩ [97]
    ⟨[100, 105, 115, 116]⟩ (by decide) rfl

end Claims

namespace FileManager

open Cache Router

/-- error taxonomy seen by `FileManager.getProduction`: the orchestrator's
own `ErrNotFound`, or an I/O error surfaced unchanged from
`fileaccess.Read` (its payload is opaque here). -/
inductive FMErr where
  | notFound
  | ioError (code : Nat)
deriving DecidableEq

/-- observable calls made by one `getProduction` invocation, in order. -/
inductive FMEvent where
  | coalDoE (loc : Str)
  | cacheGetE (loc : Str)
  | storageReadE (loc : Str)
  | cacheSetE (loc : Str)
deriving DecidableEq

/-- FileManager.getProduction of `modules/filemanager/filemanager.go`,
for a single caller (the coalescer's `Do` runs the loader directly when
no call for the key is in flight; the overlapping-caller behaviour is
the coalescer transition system below). `Route` miss returns
`ErrNotFound` before the coalescer, cache or storage are touched; the
loader consults the cache, then storage, and populates the cache with a
24-hour TTL (`time.Now().Add(24h)`, stored as `now + 86400` Unix
seconds). The returned triple is (result, cache after the call, events
in order). -/
def getProduction (r : Router.Router) (c : Cache.Cache)
    (storage : Str → Except FMErr Str) (now : Int) (path : Str) :
    Except FMErr Str × Cache.Cache × List FMEvent :=
  match Route r path with
  | (_, false) => (Except.error FMErr.notFound, c, [])
  | (loc, true) =>
    match Get c now loc with
    | (some data, true) =>
      (Except.ok data, c, [.coalDoE loc, .cacheGetE loc])
    | _ =>
      match storage loc with
      | Except.error e =>
        (Except.error e, c, [.coalDoE loc, .cacheGetE loc, .storageReadE loc])
      | Except.ok data =>
        (Except.ok data, Cache.Set c now loc data (now + 86400),
          [.coalDoE loc, .cacheGetE loc, .storageReadE loc, .cacheSetE loc])

end FileManager

namespace Claims

open Cache Router FileManager

/-- C8: in routed (production) mode a path the router does not resolve
returns `NotFound` with an empty event trace — no coalescer, cache or
storage call happens; a resolved path is loaded under `Coalescer.Do` on
its location: a cache hit returns the cached bytes without any storage
read, a miss reads storage exactly once, populates the cache with the
future TTL `now + 86400`, and returns the bytes. -/
theorem C8_production_flow (r : Router.Router) (c : Cache.Cache)
    (storage : Str → Except FMErr Str) (now : Int) (path : Str) :
    ((Route r path).2 = false →
      getProduction r c storage now path = (Except.error FMErr.notFound, c, [])) ∧
    (∀ loc data, Route r path = (loc, true) → Get c now loc = (some data, true) →
      getProduction r c storage now path =
        (Except.ok data, c, [.coalDoE loc, .cacheGetE loc])) ∧
    (∀ loc data, Route r path = (loc, true) → Get c now loc = (none, false) →
      storage loc = Except.ok data →
      getProduction r c storage now path =
        (Except.ok data, Cache.Set c now loc data (now + 86400),
          [.coalDoE loc, .cacheGetE loc, .storageReadE loc, .cacheSetE loc]) ∧
        now < now + 86400) ∧
    (∀ loc e, Route r path = (loc, true) → Get c now loc = (none, false) →
      storage loc = Except.error e →
      getProduction r c storage now path =
        (Except.error e, c, [.coalDoE loc, .cacheGetE loc, .storageReadE loc])) := by
  refine ⟨?_, ?_, ?_, ?_⟩
  · intro hmiss
    rcases hr : Route r path with ⟨loc, found⟩
    rw [hr] at hmiss
    simp only at hmiss
    subst hmiss
    simp only [getProduction, hr]
  · intro loc data hr hget
    simp only [getProduction, hr, hget]
  · intro loc data hr hget hs
    refine ⟨?_, by omega⟩
    simp only [getProduction, hr, hget, hs]
  · intro loc e hr hget hs
    simp only [getProduction, hr, hget, hs]

/-- C8 witness: a one-route router over an empty cache and a one-file
storage: the unresolved path gives `NotFound` with no events, and the
resolved path reads storage once and fills the cache. -/
theorem C8_witness :
    getProduction ⟨Insert ⟨[108, 49]⟩ [[104]] (.mk [] [] none)⟩ (NewCache 4 0)
        (fun loc => if loc = [108, 49] then Except.ok [7] else Except.error (FMErr.ioError 0))
        50 [47, 109, 105] =
      (Except.error FMErr.notFound, NewCache 4 0, []) ∧
    getProduction ⟨Insert ⟨[108, 49]⟩ [[104]] (.mk [] [] none)⟩ (NewCache 4 0)
        (fun loc => if loc = [108, 49] then Except.ok [7] else Except.error (FMErr.ioError 0))
        50 [47, 104] =
      (Except.ok [7], Cache.Set (NewCache 4 0) 50 [108, 49] [7] (50 + 86400),
        [.coalDoE [108, 49], .cacheGetE [108, 49], .storageReadE [108, 49],
          .cacheSetE [108, 49]]) :=
  ⟨(C8_production_flow ⟨Insert ⟨[108, 49]⟩ [[104]] (.mk [] [] none)⟩ (NewCache 4 0)
      (fun loc => if loc = [108, 49] then Except.ok [7] else Except.error (FMErr.ioError 0))
      50 [47, 109, 105]).1 (by decide),
    ((C8_production_flow ⟨Insert ⟨[108, 49]⟩ [[104]] (.mk [] [] none)⟩ (NewCache 4 0)
      (fun loc => if loc = [108, 49] then Except.ok [7] else Except.error (FMErr.ioError 0))
      50 [47, 104]).2.2.1 [108, 49] [7] (by decide) (by decide) rfl).1⟩

end Claims

namespace Coalescer

/-- result of one loader invocation: the `([]byte, error)` pair, the
error abstracted by an opaque code. -/
abbrev Res := Str × Option Nat

/-- phase of one goroutine inside `Coalescer.Do` of
`modules/coalescer/coalescer.go`. The phases delimit the atomic
lock-protected sections of `Do`: the `RLock` fast check, the `Lock`
re-check-and-register, the unlocked `fn()` execution with the plain
writes to `call.val`/`call.err`, the `Lock` map delete, the `wg.Done`,
and the `wg.Wait` of a coalesced caller. -/
inductive Phase where
  | start (k : Nat)
  | slow (k : Nat)
  | waiting (k : Nat) (c : Nat)
  | running (k : Nat) (c : Nat)
  | cleanup (k : Nat) (c : Nat)
  | wgdone (k : Nat) (c : Nat)
  | finished (k : Nat) (c : Nat) (r : Res)
deriving DecidableEq

/-- global state of the coalescer and its callers. Keys are hashed to
one of 32 independently locked shards; a key owns exactly one slot of
its shard's `calls` map, so the maps are merged into one key-indexed
map. `Call` records are identified by allocation order (`nextCall`);
`callVal` is `call.val`/`call.err`, `callDone` the released waitgroup,
`execs c` how many times `fn` ran for record `c`, and `fnCount` the
shared counter of loader invocations. -/
structure CoState where
  calls : Nat → Option Nat
  callVal : Nat → Option Res
  callDone : Nat → Bool
  nextCall : Nat
  execs : Nat → Nat
  fnCount : Nat
  threads : Nat → Phase

/-- pointwise function update. -/
def upd {α : Type} (g : Nat → α) (i : Nat) (a : α) : Nat → α :=
  fun j => if j = i then a else g j

theorem upd_self {α : Type} (g : Nat → α) (i : Nat) (a : α) : upd g i a i = a := by
  simp [upd]

theorem upd_other {α : Type} (g : Nat → α) {i j : Nat} (a : α) (h : j ≠ i) :
    upd g i a j = g j := by
  simp [upd, h]

/-- one atomic step of `Coalescer.Do`, interleaved over the goroutines.
The loader is modelled as `f` applied to the shared invocation counter,
covering the spec's counter-incrementing test loaders. -/
inductive CoStep (f : Nat → Res) : CoState → CoState → Prop where
  | fastHit {s : CoState} (t k c : Nat)
      (ht : s.threads t = .start k) (hc : s.calls k = some c) :
      CoStep f s { s with threads := upd s.threads t (.waiting k c) }
  | fastMiss {s : CoState} (t k : Nat)
      (ht : s.threads t = .start k) (hc : s.calls k = none) :
      CoStep f s { s with threads := upd s.threads t (.slow k) }
  | slowHit {s : CoState} (t k c : Nat)
      (ht : s.threads t = .slow k) (hc : s.calls k = some c) :
      CoStep f s { s with threads := upd s.threads t (.waiting k c) }
  | register {s : CoState} (t k : Nat)
      (ht : s.threads t = .slow k) (hc : s.calls k = none) :
      CoStep f s { s with
        calls := upd s.calls k (some s.nextCall),
        nextCall := s.nextCall + 1,
        threads := upd s.threads t (.running k s.nextCall) }
  | execute {s : CoState} (t k c : Nat)
      (ht : s.threads t = .running k c) :
      CoStep f s { s with
        callVal := upd s.callVal c (some (f s.fnCount)),
        fnCount := s.fnCount + 1,
        execs := upd s.execs c (s.execs c + 1),
        threads := upd s.threads t (.cleanup k c) }
  | removeKey {s : CoState} (t k c : Nat)
      (ht : s.threads t = .cleanup k c) :
      CoStep f s { s with
        calls := upd s.calls k none,
        threads := upd s.threads t (.wgdone k c) }
  | doneSignal {s : CoState} (t k c : Nat) (r : Res)
      (ht : s.threads t = .wgdone k c) (hv : s.callVal c = some r) :
      CoStep f s { s with
        callDone := upd s.callDone c true,
        threads := upd s.threads t (.finished k c r) }
  | waitReturn {s : CoState} (t k c : Nat) (r : Res)
      (ht : s.threads t = .waiting k c) (hd : s.callDone c = true)
      (hv : s.callVal c = some r) :
      CoStep f s { s with threads := upd s.threads t (.finished k c r) }

/-- initial state: every goroutine is about to enter `Do` for its
intended key; no call records exist. -/
def coInit (intents : Nat → Nat) : CoState :=
  { calls := fun _ => none, callVal := fun _ => none,
    callDone := fun _ => false, nextCall := 0,
    execs := fun _ => 0, fnCount := 0,
    threads := fun t => .start (intents t) }

/-- reachability from the initial state under interleaved steps. -/
def CoReach (f : Nat → Res) (intents : Nat → Nat) (s : CoState) : Prop :=
  Relation.ReflTransGen (CoStep f) (coInit intents) s

/-- a phase in which the goroutine is the executor of call record `c`
(it registered the record and has not yet released the waiters). -/
def ExecPhase : Phase → Nat → Prop
  | .running _ c', c => c' = c
  | .cleanup _ c', c => c' = c
  | .wgdone _ c', c => c' = c
  | _, _ => False

/-- a phase holding a pointer to call record `c`. -/
def RefsCall : Phase → Nat → Prop
  | .waiting _ c', c => c' = c
  | .running _ c', c => c' = c
  | .cleanup _ c', c => c' = c
  | .wgdone _ c', c => c' = c
  | .finished _ c' _, c => c' = c
  | _, _ => False

theorem refs_of_exec {p : Phase} {c : Nat} (h : ExecPhase p c) : RefsCall p c := by
  cases p <;> simp_all [ExecPhase, RefsCall]

/-- inductive invariant of the coalescer protocol. -/
structure Inv (s : CoState) : Prop where
  run_st : ∀ t k c, s.threads t = .running k c →
    s.calls k = some c ∧ s.callVal c = none ∧ s.callDone c = false ∧ s.execs c = 0
  clean_st : ∀ t k c, s.threads t = .cleanup k c →
    s.calls k = some c ∧ (∃ r, s.callVal c = some r) ∧
      s.callDone c = false ∧ s.execs c = 1
  done_st : ∀ t k c, s.threads t = .wgdone k c →
    (∃ r, s.callVal c = some r) ∧ s.callDone c = false ∧ s.execs c = 1
  uniq : ∀ t1 t2 c, ExecPhase (s.threads t1) c → ExecPhase (s.threads t2) c → t1 = t2
  fin_st : ∀ t k c r, s.threads t = .finished k c r →
    s.callVal c = some r ∧ s.callDone c = true
  fresh : ∀ c, s.nextCall ≤ c →
    s.callVal c = none ∧ s.callDone c = false ∧ s.execs c = 0 ∧
      (∀ k, s.calls k ≠ some c) ∧ (∀ t, ¬ RefsCall (s.threads t) c)
  flag : ∀ c, s.callDone c = true →
    (∃ r, s.callVal c = some r) ∧ s.execs c = 1 ∧ ∀ t, ¬ ExecPhase (s.threads t) c
  val_execs : ∀ c r, s.callVal c = some r → s.execs c = 1
  map_live : ∀ k c, s.calls k = some c →
    ∃ t, s.threads t = .running k c ∨ s.threads t = .cleanup k c

theorem inv_init (intents : Nat → Nat) : Inv (coInit intents) := by
  constructor <;>
    simp [coInit, ExecPhase, RefsCall]

theorem refs_lt {s : CoState} (hs : Inv s) {t c : Nat}
    (h : RefsCall (s.threads t) c) : c < s.nextCall := by
  by_contra hge
  exact (hs.fresh c (Nat.le_of_not_lt hge)).2.2.2.2 t h

theorem calls_lt {s : CoState} (hs : Inv s) {k c : Nat}
    (h : s.calls k = some c) : c < s.nextCall := by
  by_contra hge
  exact (hs.fresh c (Nat.le_of_not_lt hge)).2.2.2.1 k h

theorem inv_step {f : Nat → Res} {s s' : CoState} (hs : Inv s)
    (hstep : CoStep f s s') : Inv s' := by
  cases hstep with
  | fastHit t k c ht hc =>
    refine ⟨?_, ?_, ?_, ?_, ?_, ?_, ?_, hs.val_execs, ?_⟩
    · intro t' k' c' h'
      simp only [upd] at h'
      by_cases htt : t' = t
      · rw [if_pos htt] at h'; exact Phase.noConfusion h'
      · rw [if_neg htt] at h'; exact hs.run_st t' k' c' h'
    · intro t' k' c' h'
      simp only [upd] at h'
      by_cases htt : t' = t
      · rw [if_pos htt] at h'; exact Phase.noConfusion h'
      · rw [if_neg htt] at h'; exact hs.clean_st t' k' c' h'
    · intro t' k' c' h'
      simp only [upd] at h'
      by_cases htt : t' = t
      · rw [if_pos htt] at h'; exact Phase.noConfusion h'
      · rw [if_neg htt] at h'; exact hs.done_st t' k' c' h'
    · intro t1 t2 c0 h1 h2
      simp only [upd] at h1 h2
      by_cases h1t : t1 = t <;> by_cases h2t : t2 = t
      · rw [h1t, h2t]
      · rw [if_pos h1t] at h1; simp [ExecPhase] at h1
      · rw [if_pos h2t] at h2; simp [ExecPhase] at h2
      · rw [if_neg h1t] at h1; rw [if_neg h2t] at h2
        exact hs.uniq t1 t2 c0 h1 h2
    · intro t' k' c' r' h'
      simp only [upd] at h'
      by_cases htt : t' = t
      · rw [if_pos htt] at h'; exact Phase.noConfusion h'
      · rw [if_neg htt] at h'; exact hs.fin_st t' k' c' r' h'
    · intro c0 hge
      obtain ⟨hv, hd, he, hks, hrefs⟩ := hs.fresh c0 hge
      refine ⟨hv, hd, he, hks, ?_⟩
      intro t' hr
      simp only [upd] at hr
      by_cases htt : t' = t
      · rw [if_pos htt] at hr
        simp only [RefsCall] at hr
        exact hks k (hr ▸ hc)
      · rw [if_neg htt] at hr; exact hrefs t' hr
    · intro c0 hd0
      obtain ⟨hv, he, hnoex⟩ := hs.flag c0 hd0
      refine ⟨hv, he, ?_⟩
      intro t' hex
      simp only [upd] at hex
      by_cases htt : t' = t
      · rw [if_pos htt] at hex; simp [ExecPhase] at hex
      · rw [if_neg htt] at hex; exact hnoex t' hex

    · intro k' c' h'
      obtain ⟨t0, ht0⟩ := hs.map_live k' c' h'
      refine ⟨t0, ?_⟩
      simp only [upd]
      by_cases ht0t : t0 = t
      · rw [ht0t, ht] at ht0
        rcases ht0 with h0 | h0 <;> exact Phase.noConfusion h0
      · rw [if_neg ht0t]
        exact ht0
  | fastMiss t k ht hc =>
    refine ⟨?_, ?_, ?_, ?_, ?_, ?_, ?_, hs.val_execs, ?_⟩
    · intro t' k' c' h'
      simp only [upd] at h'
      by_cases htt : t' = t
      · rw [if_pos htt] at h'; exact Phase.noConfusion h'
      · rw [if_neg htt] at h'; exact hs.run_st t' k' c' h'
    · intro t' k' c' h'
      simp only [upd] at h'
      by_cases htt : t' = t
      · rw [if_pos htt] at h'; exact Phase.noConfusion h'
      · rw [if_neg htt] at h'; exact hs.clean_st t' k' c' h'
    · intro t' k' c' h'
      simp only [upd] at h'
      by_cases htt : t' = t
      · rw [if_pos htt] at h'; exact Phase.noConfusion h'
      · rw [if_neg htt] at h'; exact hs.done_st t' k' c' h'
    · intro t1 t2 c0 h1 h2
      simp only [upd] at h1 h2
      by_cases h1t : t1 = t <;> by_cases h2t : t2 = t
      · rw [h1t, h2t]
      · rw [if_pos h1t] at h1; simp [ExecPhase] at h1
      · rw [if_pos h2t] at h2; simp [ExecPhase] at h2
      · rw [if_neg h1t] at h1; rw [if_neg h2t] at h2
        exact hs.uniq t1 t2 c0 h1 h2
    · intro t' k' c' r' h'
      simp only [upd] at h'
      by_cases htt : t' = t
      · rw [if_pos htt] at h'; exact Phase.noConfusion h'
      · rw [if_neg htt] at h'; exact hs.fin_st t' k' c' r' h'
    · intro c0 hge
      obtain ⟨hv, hd, he, hks, hrefs⟩ := hs.fresh c0 hge
      refine ⟨hv, hd, he, hks, ?_⟩
      intro t' hr
      simp only [upd] at hr
      by_cases htt : t' = t
      · rw [if_pos htt] at hr; simp [RefsCall] at hr
      · rw [if_neg htt] at hr; exact hrefs t' hr
    · intro c0 hd0
      obtain ⟨hv, he, hnoex⟩ := hs.flag c0 hd0
      refine ⟨hv, he, ?_⟩
      intro t' hex
      simp only [upd] at hex
      by_cases htt : t' = t
      · rw [if_pos htt] at hex; simp [ExecPhase] at hex
      · rw [if_neg htt] at hex; exact hnoex t' hex

    · intro k' c' h'
      obtain ⟨t0, ht0⟩ := hs.map_live k' c' h'
      refine ⟨t0, ?_⟩
      simp only [upd]
      by_cases ht0t : t0 = t
      · rw [ht0t, ht] at ht0
        rcases ht0 with h0 | h0 <;> exact Phase.noConfusion h0
      · rw [if_neg ht0t]
        exact ht0
  | slowHit t k c ht hc =>
    refine ⟨?_, ?_, ?_, ?_, ?_, ?_, ?_, hs.val_execs, ?_⟩
    · intro t' k' c' h'
      simp only [upd] at h'
      by_cases htt : t' = t
      · rw [if_pos htt] at h'; exact Phase.noConfusion h'
      · rw [if_neg htt] at h'; exact hs.run_st t' k' c' h'
    · intro t' k' c' h'
      simp only [upd] at h'
      by_cases htt : t' = t
      · rw [if_pos htt] at h'; exact Phase.noConfusion h'
      · rw [if_neg htt] at h'; exact hs.clean_st t' k' c' h'
    · intro t' k' c' h'
      simp only [upd] at h'
      by_cases htt : t' = t
      · rw [if_pos htt] at h'; exact Phase.noConfusion h'
      · rw [if_neg htt] at h'; exact hs.done_st t' k' c' h'
    · intro t1 t2 c0 h1 h2
      simp only [upd] at h1 h2
      by_cases h1t : t1 = t <;> by_cases h2t : t2 = t
      · rw [h1t, h2t]
      · rw [if_pos h1t] at h1; simp [ExecPhase] at h1
      · rw [if_pos h2t] at h2; simp [ExecPhase] at h2
      · rw [if_neg h1t] at h1; rw [if_neg h2t] at h2
        exact hs.uniq t1 t2 c0 h1 h2
    · intro t' k' c' r' h'
      simp only [upd] at h'
      by_cases htt : t' = t
      · rw [if_pos htt] at h'; exact Phase.noConfusion h'
      · rw [if_neg htt] at h'; exact hs.fin_st t' k' c' r' h'
    · intro c0 hge
      obtain ⟨hv, hd, he, hks, hrefs⟩ := hs.fresh c0 hge
      refine ⟨hv, hd, he, hks, ?_⟩
      intro t' hr
      simp only [upd] at hr
      by_cases htt : t' = t
      · rw [if_pos htt] at hr
        simp only [RefsCall] at hr
        exact hks k (hr ▸ hc)
      · rw [if_neg htt] at hr; exact hrefs t' hr
    · intro c0 hd0
      obtain ⟨hv, he, hnoex⟩ := hs.flag c0 hd0
      refine ⟨hv, he, ?_⟩
      intro t' hex
      simp only [upd] at hex
      by_cases htt : t' = t
      · rw [if_pos htt] at hex; simp [ExecPhase] at hex
      · rw [if_neg htt] at hex; exact hnoex t' hex

    · intro k' c' h'
      obtain ⟨t0, ht0⟩ := hs.map_live k' c' h'
      refine ⟨t0, ?_⟩
      simp only [upd]
      by_cases ht0t : t0 = t
      · rw [ht0t, ht] at ht0
        rcases ht0 with h0 | h0 <;> exact Phase.noConfusion h0
      · rw [if_neg ht0t]
        exact ht0
  | register t k ht hc =>
    have hfreshnc := hs.fresh s.nextCall (le_refl _)
    refine ⟨?_, ?_, ?_, ?_, ?_, ?_, ?_, hs.val_execs, ?_⟩
    · intro t' k' c' h'
      simp only [upd] at h' ⊢
      by_cases htt : t' = t
      · rw [if_pos htt] at h'
        cases h'
        exact ⟨by rw [if_pos rfl], hfreshnc.1, hfreshnc.2.1, hfreshnc.2.2.1⟩
      · rw [if_neg htt] at h'
        obtain ⟨hks, hv, hd, he⟩ := hs.run_st t' k' c' h'
        have hkk : k' ≠ k := by
          intro hEq
          rw [hEq, hc] at hks
          exact Option.noConfusion hks
        exact ⟨by rw [if_neg hkk]; exact hks, hv, hd, he⟩
    · intro t' k' c' h'
      simp only [upd] at h' ⊢
      by_cases htt : t' = t
      · rw [if_pos htt] at h'; exact Phase.noConfusion h'
      · rw [if_neg htt] at h'
        obtain ⟨hks, hv, hd, he⟩ := hs.clean_st t' k' c' h'
        have hkk : k' ≠ k := by
          intro hEq
          rw [hEq, hc] at hks
          exact Option.noConfusion hks
        exact ⟨by rw [if_neg hkk]; exact hks, hv, hd, he⟩
    · intro t' k' c' h'
      simp only [upd] at h'
      by_cases htt : t' = t
      · rw [if_pos htt] at h'; exact Phase.noConfusion h'
      · rw [if_neg htt] at h'; exact hs.done_st t' k' c' h'
    · intro t1 t2 c0 h1 h2
      simp only [upd] at h1 h2
      by_cases h1t : t1 = t <;> by_cases h2t : t2 = t
      · rw [h1t, h2t]
      · rw [if_pos h1t] at h1
        rw [if_neg h2t] at h2
        simp only [ExecPhase] at h1
        exact absurd (refs_of_exec (h1 ▸ h2)) (hfreshnc.2.2.2.2 t2)
      · rw [if_pos h2t] at h2
        rw [if_neg h1t] at h1
        simp only [ExecPhase] at h2
        exact absurd (refs_of_exec (h2 ▸ h1)) (hfreshnc.2.2.2.2 t1)
      · rw [if_neg h1t] at h1; rw [if_neg h2t] at h2
        exact hs.uniq t1 t2 c0 h1 h2
    · intro t' k' c' r' h'
      simp only [upd] at h'
      by_cases htt : t' = t
      · rw [if_pos htt] at h'; exact Phase.noConfusion h'
      · rw [if_neg htt] at h'; exact hs.fin_st t' k' c' r' h'
    · intro c0 hge
      simp only at hge
      have hge' : s.nextCall ≤ c0 := by omega
      have hne : s.nextCall ≠ c0 := by omega
      obtain ⟨hv, hd, he, hks, hrefs⟩ := hs.fresh c0 hge'
      refine ⟨hv, hd, he, ?_, ?_⟩
      · intro k'
        simp only [upd]
        by_cases hkk : k' = k
        · rw [if_pos hkk]
          intro hEq
          exact hne (Option.some.injEq _ _ ▸ hEq)
        · rw [if_neg hkk]; exact hks k'
      · intro t' hr
        simp only [upd] at hr
        by_cases htt : t' = t
        · rw [if_pos htt] at hr
          simp only [RefsCall] at hr
          exact hne hr
        · rw [if_neg htt] at hr; exact hrefs t' hr
    · intro c0 hd0
      obtain ⟨hv, he, hnoex⟩ := hs.flag c0 hd0
      refine ⟨hv, he, ?_⟩
      intro t' hex
      simp only [upd] at hex
      by_cases htt : t' = t
      · rw [if_pos htt] at hex
        simp only [ExecPhase] at hex
        rw [← hex] at hd0
        rw [hfreshnc.2.1] at hd0
        exact Bool.noConfusion hd0
      · rw [if_neg htt] at hex; exact hnoex t' hex

    · intro k' c' h'
      simp only [upd] at h'
      by_cases hkk : k' = k
      · rw [if_pos hkk] at h'
        have hcc : c' = s.nextCall := (Option.some.inj h').symm
        subst hkk
        subst hcc
        exact ⟨t, Or.inl (upd_self _ _ _)⟩
      · rw [if_neg hkk] at h'
        obtain ⟨t0, ht0⟩ := hs.map_live k' c' h'
        refine ⟨t0, ?_⟩
        simp only [upd]
        by_cases ht0t : t0 = t
        · rw [ht0t, ht] at ht0
          rcases ht0 with h0 | h0 <;> exact Phase.noConfusion h0
        · rw [if_neg ht0t]
          exact ht0
  | execute t k c ht =>
    obtain ⟨hkc, hvnone, hdfalse, he0⟩ := hs.run_st t k c ht
    have hexec_t : ExecPhase (s.threads t) c := by rw [ht]; exact rfl
    refine ⟨?_, ?_, ?_, ?_, ?_, ?_, ?_, ?_, ?_⟩
    · intro t' k' c' h'
      simp only [upd] at h' ⊢
      by_cases htt : t' = t
      · rw [if_pos htt] at h'; exact Phase.noConfusion h'
      · rw [if_neg htt] at h'
        obtain ⟨hks, hv, hd, he⟩ := hs.run_st t' k' c' h'
        have hcc : c' ≠ c := by
          intro hEq
          apply htt
          exact hs.uniq t' t c (by rw [h', hEq]; exact rfl) hexec_t
        exact ⟨hks, by rw [if_neg hcc]; exact hv, hd, by rw [if_neg hcc]; exact he⟩
    · intro t' k' c' h'
      simp only [upd] at h' ⊢
      by_cases htt : t' = t
      · rw [if_pos htt] at h'
        cases h'
        refine ⟨hkc, ⟨f s.fnCount, by rw [if_pos rfl]⟩, hdfalse, ?_⟩
        rw [if_pos rfl, he0]
      · rw [if_neg htt] at h'
        obtain ⟨hks, ⟨r0, hv⟩, hd, he⟩ := hs.clean_st t' k' c' h'
        have hcc : c' ≠ c := by
          intro hEq
          apply htt
          exact hs.uniq t' t c (by rw [h', hEq]; exact rfl) hexec_t
        exact ⟨hks, ⟨r0, by rw [if_neg hcc]; exact hv⟩, hd, by rw [if_neg hcc]; exact he⟩
    · intro t' k' c' h'
      simp only [upd] at h' ⊢
      by_cases htt : t' = t
      · rw [if_pos htt] at h'; exact Phase.noConfusion h'
      · rw [if_neg htt] at h'
        obtain ⟨⟨r0, hv⟩, hd, he⟩ := hs.done_st t' k' c' h'
        have hcc : c' ≠ c := by
          intro hEq
          apply htt
          exact hs.uniq t' t c (by rw [h', hEq]; exact rfl) hexec_t
        exact ⟨⟨r0, by rw [if_neg hcc]; exact hv⟩, hd, by rw [if_neg hcc]; exact he⟩
    · intro t1 t2 c0 h1 h2
      simp only [upd] at h1 h2
      by_cases h1t : t1 = t <;> by_cases h2t : t2 = t
      · rw [h1t, h2t]
      · rw [if_pos h1t] at h1
        rw [if_neg h2t] at h2
        simp only [ExecPhase] at h1
        exact absurd (hs.uniq t2 t c0 h2 (h1 ▸ hexec_t)) h2t
      · rw [if_pos h2t] at h2
        rw [if_neg h1t] at h1
        simp only [ExecPhase] at h2
        exact absurd (hs.uniq t1 t c0 h1 (h2 ▸ hexec_t)) h1t
      · rw [if_neg h1t] at h1; rw [if_neg h2t] at h2
        exact hs.uniq t1 t2 c0 h1 h2
    · intro t' k' c' r' h'
      simp only [upd] at h' ⊢
      by_cases htt : t' = t
      · rw [if_pos htt] at h'; exact Phase.noConfusion h'
      · rw [if_neg htt] at h'
        have hv := hs.fin_st t' k' c' r' h'
        have hcc : c' ≠ c := by
          intro hEq
          rw [hEq, hvnone] at hv
          exact Option.noConfusion hv.1
        exact ⟨by rw [if_neg hcc]; exact hv.1, hv.2⟩
    · intro c0 hge
      simp only at hge
      obtain ⟨hv, hd, he, hks, hrefs⟩ := hs.fresh c0 hge
      have hcc : c ≠ c0 := by
        intro hEq
        exact hrefs t (by rw [ht]; exact (RefsCall.eq_def _ _ ▸ hEq : RefsCall (.running k c) c0))
      refine ⟨?_, hd, ?_, hks, ?_⟩
      · simp only [upd]
        rw [if_neg (fun h => hcc h.symm)]
        exact hv
      · simp only [upd]
        rw [if_neg (fun h => hcc h.symm)]
        exact he
      · intro t' hr
        simp only [upd] at hr
        by_cases htt : t' = t
        · rw [if_pos htt] at hr
          simp only [RefsCall] at hr
          exact hcc hr
        · rw [if_neg htt] at hr; exact hrefs t' hr
    · intro c0 hd0
      simp only at hd0
      obtain ⟨⟨r0, hv⟩, he, hnoex⟩ := hs.flag c0 hd0
      have hcc : c ≠ c0 := by
        intro hEq
        exact hnoex t (hEq ▸ hexec_t)
      refine ⟨⟨r0, ?_⟩, ?_, ?_⟩
      · simp only [upd]
        rw [if_neg (fun h => hcc h.symm)]
        exact hv
      · simp only [upd]
        rw [if_neg (fun h => hcc h.symm)]
        exact he
      · intro t' hex
        simp only [upd] at hex
        by_cases htt : t' = t
        · rw [if_pos htt] at hex
          simp only [ExecPhase] at hex
          exact hcc hex
        · rw [if_neg htt] at hex; exact hnoex t' hex
    · intro c0 r0 hv0
      simp only [upd] at hv0 ⊢
      by_cases hcc : c0 = c
      · rw [if_pos hcc]
        rw [he0]
      · rw [if_neg hcc] at hv0 ⊢
        exact hs.val_execs c0 r0 hv0

    · intro k' c' h'
      obtain ⟨t0, ht0⟩ := hs.map_live k' c' h'
      by_cases ht0t : t0 = t
      · rw [ht0t, ht] at ht0
        rcases ht0 with h0 | h0
        · cases h0
          exact ⟨t, Or.inr (upd_self _ _ _)⟩
        · exact Phase.noConfusion h0
      · refine ⟨t0, ?_⟩
        simp only [upd]
        rw [if_neg ht0t]
        exact ht0
  | removeKey t k c ht =>
    obtain ⟨hkc, hval, hdfalse, he1⟩ := hs.clean_st t k c ht
    have hexec_t : ExecPhase (s.threads t) c := by rw [ht]; exact rfl
    refine ⟨?_, ?_, ?_, ?_, ?_, ?_, ?_, hs.val_execs, ?_⟩
    · intro t' k' c' h'
      simp only [upd] at h' ⊢
      by_cases htt : t' = t
      · rw [if_pos htt] at h'; exact Phase.noConfusion h'
      · rw [if_neg htt] at h'
        obtain ⟨hks, hv, hd, he⟩ := hs.run_st t' k' c' h'
        have hkk : k' ≠ k := by
          intro hEq
          rw [hEq, hkc] at hks
          have hcc : c' = c := (Option.some.inj hks).symm
          exact htt (hs.uniq t' t c (by rw [h', hcc]; exact rfl) hexec_t)
        exact ⟨by rw [if_neg hkk]; exact hks, hv, hd, he⟩
    · intro t' k' c' h'
      simp only [upd] at h' ⊢
      by_cases htt : t' = t
      · rw [if_pos htt] at h'; exact Phase.noConfusion h'
      · rw [if_neg htt] at h'
        obtain ⟨hks, hv, hd, he⟩ := hs.clean_st t' k' c' h'
        have hkk : k' ≠ k := by
          intro hEq
          rw [hEq, hkc] at hks
          have hcc : c' = c := (Option.some.inj hks).symm
          exact htt (hs.uniq t' t c (by rw [h', hcc]; exact rfl) hexec_t)
        exact ⟨by rw [if_neg hkk]; exact hks, hv, hd, he⟩
    · intro t' k' c' h'
      simp only [upd] at h'
      by_cases htt : t' = t
      · rw [if_pos htt] at h'
        cases h'
        exact ⟨hval, hdfalse, he1⟩
      · rw [if_neg htt] at h'; exact hs.done_st t' k' c' h'
    · intro t1 t2 c0 h1 h2
      simp only [upd] at h1 h2
      by_cases h1t : t1 = t <;> by_cases h2t : t2 = t
      · rw [h1t, h2t]
      · rw [if_pos h1t] at h1
        rw [if_neg h2t] at h2
        simp only [ExecPhase] at h1
        exact absurd (hs.uniq t2 t c0 h2 (h1 ▸ hexec_t)) h2t
      · rw [if_pos h2t] at h2
        rw [if_neg h1t] at h1
        simp only [ExecPhase] at h2
        exact absurd (hs.uniq t1 t c0 h1 (h2 ▸ hexec_t)) h1t
      · rw [if_neg h1t] at h1; rw [if_neg h2t] at h2
        exact hs.uniq t1 t2 c0 h1 h2
    · intro t' k' c' r' h'
      simp only [upd] at h'
      by_cases htt : t' = t
      · rw [if_pos htt] at h'; exact Phase.noConfusion h'
      · rw [if_neg htt] at h'; exact hs.fin_st t' k' c' r' h'
    · intro c0 hge
      obtain ⟨hv, hd, he, hks, hrefs⟩ := hs.fresh c0 hge
      refine ⟨hv, hd, he, ?_, ?_⟩
      · intro k'
        simp only [upd]
        by_cases hkk : k' = k
        · rw [if_pos hkk]
          exact fun h => Option.noConfusion h
        · rw [if_neg hkk]; exact hks k'
      · intro t' hr
        simp only [upd] at hr
        by_cases htt : t' = t
        · rw [if_pos htt] at hr
          simp only [RefsCall] at hr
          exact hrefs t (by rw [ht]; exact hr)
        · rw [if_neg htt] at hr; exact hrefs t' hr
    · intro c0 hd0
      obtain ⟨hv, he, hnoex⟩ := hs.flag c0 hd0
      refine ⟨hv, he, ?_⟩
      intro t' hex
      simp only [upd] at hex
      by_cases htt : t' = t
      · rw [if_pos htt] at hex
        simp only [ExecPhase] at hex
        exact hnoex t (hex ▸ hexec_t)
      · rw [if_neg htt] at hex; exact hnoex t' hex

    · intro k' c' h'
      simp only [upd] at h'
      by_cases hkk : k' = k
      · rw [if_pos hkk] at h'
        exact Option.noConfusion h'
      · rw [if_neg hkk] at h'
        obtain ⟨t0, ht0⟩ := hs.map_live k' c' h'
        refine ⟨t0, ?_⟩
        simp only [upd]
        by_cases ht0t : t0 = t
        · rw [ht0t, ht] at ht0
          rcases ht0 with h0 | h0
          · exact Phase.noConfusion h0
          · cases h0
            exact absurd rfl hkk
        · rw [if_neg ht0t]
          exact ht0
  | doneSignal t k c r ht hv =>
    obtain ⟨hval, hdfalse, he1⟩ := hs.done_st t k c ht
    have hexec_t : ExecPhase (s.threads t) c := by rw [ht]; exact rfl
    refine ⟨?_, ?_, ?_, ?_, ?_, ?_, ?_, hs.val_execs, ?_⟩
    · intro t' k' c' h'
      simp only [upd] at h' ⊢
      by_cases htt : t' = t
      · rw [if_pos htt] at h'; exact Phase.noConfusion h'
      · rw [if_neg htt] at h'
        obtain ⟨hks, hv', hd, he⟩ := hs.run_st t' k' c' h'
        have hcc : c' ≠ c := by
          intro hEq
          exact htt (hs.uniq t' t c (by rw [h', hEq]; exact rfl) hexec_t)
        exact ⟨hks, hv', by rw [if_neg hcc]; exact hd, he⟩
    · intro t' k' c' h'
      simp only [upd] at h' ⊢
      by_cases htt : t' = t
      · rw [if_pos htt] at h'; exact Phase.noConfusion h'
      · rw [if_neg htt] at h'
        obtain ⟨hks, hv', hd, he⟩ := hs.clean_st t' k' c' h'
        have hcc : c' ≠ c := by
          intro hEq
          exact htt (hs.uniq t' t c (by rw [h', hEq]; exact rfl) hexec_t)
        exact ⟨hks, hv', by rw [if_neg hcc]; exact hd, he⟩
    · intro t' k' c' h'
      simp only [upd] at h' ⊢
      by_cases htt : t' = t
      · rw [if_pos htt] at h'; exact Phase.noConfusion h'
      · rw [if_neg htt] at h'
        obtain ⟨hv', hd, he⟩ := hs.done_st t' k' c' h'
        have hcc : c' ≠ c := by
          intro hEq
          exact htt (hs.uniq t' t c (by rw [h', hEq]; exact rfl) hexec_t)
        exact ⟨hv', by rw [if_neg hcc]; exact hd, he⟩
    · intro t1 t2 c0 h1 h2
      simp only [upd] at h1 h2
      by_cases h1t : t1 = t <;> by_cases h2t : t2 = t
      · rw [h1t, h2t]
      · rw [if_pos h1t] at h1; simp [ExecPhase] at h1
      · rw [if_pos h2t] at h2; simp [ExecPhase] at h2
      · rw [if_neg h1t] at h1; rw [if_neg h2t] at h2
        exact hs.uniq t1 t2 c0 h1 h2
    · intro t' k' c' r' h'
      simp only [upd] at h' ⊢
      by_cases htt : t' = t
      · rw [if_pos htt] at h'
        cases h'
        exact ⟨hv, by rw [if_pos rfl]⟩
      · rw [if_neg htt] at h'
        have old := hs.fin_st t' k' c' r' h'
        refine ⟨old.1, ?_⟩
        by_cases hcc' : c' = c
        · rw [if_pos hcc']
        · rw [if_neg hcc']
          exact old.2
    · intro c0 hge
      obtain ⟨hv', hd, he, hks, hrefs⟩ := hs.fresh c0 hge
      have hcc : c ≠ c0 := by
        intro hEq
        exact hrefs t (by rw [ht]; exact (hEq ▸ rfl : RefsCall (.wgdone k c) c0))
      refine ⟨hv', ?_, he, hks, ?_⟩
      · simp only [upd]
        rw [if_neg (fun h => hcc h.symm)]
        exact hd
      · intro t' hr
        simp only [upd] at hr
        by_cases htt : t' = t
        · rw [if_pos htt] at hr
          simp only [RefsCall] at hr
          exact hcc hr
        · rw [if_neg htt] at hr; exact hrefs t' hr
    · intro c0 hd0
      simp only [upd] at hd0
      by_cases hcc : c0 = c
      · refine ⟨⟨r, by rw [hcc]; exact hv⟩, by rw [hcc]; exact he1, ?_⟩
        intro t' hex
        simp only [upd] at hex
        by_cases htt : t' = t
        · rw [if_pos htt] at hex; simp [ExecPhase] at hex
        · rw [if_neg htt] at hex
          rw [hcc] at hex
          exact htt (hs.uniq t' t c hex hexec_t)
      · rw [if_neg hcc] at hd0
        obtain ⟨hv', he, hnoex⟩ := hs.flag c0 hd0
        refine ⟨hv', he, ?_⟩
        intro t' hex
        simp only [upd] at hex
        by_cases htt : t' = t
        · rw [if_pos htt] at hex; simp [ExecPhase] at hex
        · rw [if_neg htt] at hex; exact hnoex t' hex

    · intro k' c' h'
      obtain ⟨t0, ht0⟩ := hs.map_live k' c' h'
      refine ⟨t0, ?_⟩
      simp only [upd]
      by_cases ht0t : t0 = t
      · rw [ht0t, ht] at ht0
        rcases ht0 with h0 | h0 <;> exact Phase.noConfusion h0
      · rw [if_neg ht0t]
        exact ht0
  | waitReturn t k c r ht hd hv =>
    refine ⟨?_, ?_, ?_, ?_, ?_, ?_, ?_, hs.val_execs, ?_⟩
    · intro t' k' c' h'
      simp only [upd] at h'
      by_cases htt : t' = t
      · rw [if_pos htt] at h'; exact Phase.noConfusion h'
      · rw [if_neg htt] at h'; exact hs.run_st t' k' c' h'
    · intro t' k' c' h'
      simp only [upd] at h'
      by_cases htt : t' = t
      · rw [if_pos htt] at h'; exact Phase.noConfusion h'
      · rw [if_neg htt] at h'; exact hs.clean_st t' k' c' h'
    · intro t' k' c' h'
      simp only [upd] at h'
      by_cases htt : t' = t
      · rw [if_pos htt] at h'; exact Phase.noConfusion h'
      · rw [if_neg htt] at h'; exact hs.done_st t' k' c' h'
    · intro t1 t2 c0 h1 h2
      simp only [upd] at h1 h2
      by_cases h1t : t1 = t <;> by_cases h2t : t2 = t
      · rw [h1t, h2t]
      · rw [if_pos h1t] at h1; simp [ExecPhase] at h1
      · rw [if_pos h2t] at h2; simp [ExecPhase] at h2
      · rw [if_neg h1t] at h1; rw [if_neg h2t] at h2
        exact hs.uniq t1 t2 c0 h1 h2
    · intro t' k' c' r' h'
      simp only [upd] at h'
      by_cases htt : t' = t
      · rw [if_pos htt] at h'
        cases h'
        exact ⟨hv, hd⟩
      · rw [if_neg htt] at h'; exact hs.fin_st t' k' c' r' h'
    · intro c0 hge
      obtain ⟨hv', hd', he, hks, hrefs⟩ := hs.fresh c0 hge
      refine ⟨hv', hd', he, hks, ?_⟩
      intro t' hr
      simp only [upd] at hr
      by_cases htt : t' = t
      · rw [if_pos htt] at hr
        simp only [RefsCall] at hr
        exact hrefs t (by rw [ht]; exact (hr : c = c0)  ▸ rfl)
      · rw [if_neg htt] at hr; exact hrefs t' hr
    · intro c0 hd0
      obtain ⟨hv', he, hnoex⟩ := hs.flag c0 hd0
      refine ⟨hv', he, ?_⟩
      intro t' hex
      simp only [upd] at hex
      by_cases htt : t' = t
      · rw [if_pos htt] at hex; simp [ExecPhase] at hex
      · rw [if_neg htt] at hex; exact hnoex t' hex
    · intro k' c' h'
      obtain ⟨t0, ht0⟩ := hs.map_live k' c' h'
      refine ⟨t0, ?_⟩
      simp only [upd]
      by_cases ht0t : t0 = t
      · rw [ht0t, ht] at ht0
        rcases ht0 with h0 | h0 <;> exact Phase.noConfusion h0
      · rw [if_neg ht0t]
        exact ht0

theorem reach_inv {f : Nat → Res} {intents : Nat → Nat} {s : CoState}
    (h : CoReach f intents s) : Inv s := by
  induction h with
  | refl => exact inv_init intents
  | tail hab hbc ih => exact inv_step ih hbc

/-- constant loader for the overlapping-callers scenario. -/
def coalF : Nat → Res := fun _ => ([42], none)

/-- loader returning the invocation index, to tell invocations apart. -/
def coalF6 : Nat → Res := fun n => ([n], none)

/-- both goroutines call `Do` for key 0. -/
def coalIntents : Nat → Nat := fun _ => 0

def sA0 : CoState := coInit coalIntents
def sA1 : CoState := { sA0 with
    threads := upd sA0.threads 0 (.slow 0) }
def sA2 : CoState :=
  { sA1 with
    calls := upd sA1.calls 0 (some sA1.nextCall),
    nextCall := sA1.nextCall + 1,
    threads := upd sA1.threads 0 (.running 0 sA1.nextCall) }
def sA3 : CoState := { sA2 with
    threads := upd sA2.threads 1 (.waiting 0 0) }
def sA4 : CoState :=
  { sA3 with
    callVal := upd sA3.callVal 0 (some (coalF sA3.fnCount)),
    fnCount := sA3.fnCount + 1,
    execs := upd sA3.execs 0 (sA3.execs 0 + 1),
    threads := upd sA3.threads 0 (.cleanup 0 0) }
def sA5 : CoState :=
  { sA4 with
    calls := upd sA4.calls 0 none,
    threads := upd sA4.threads 0 (.wgdone 0 0) }
def sA6 : CoState :=
  { sA5 with
    callDone := upd sA5.callDone 0 true,
    threads := upd sA5.threads 0 (.finished 0 0 ([42], none)) }
def sA7 : CoState := { sA6 with
    threads := upd sA6.threads 1 (.finished 0 0 ([42], none)) }

/-- schedule in which goroutine 1's `Do` overlaps goroutine 0's load:
0 misses, registers call 0 and runs the loader while 1 observes the
in-flight call and waits; 0 records, deletes, signals; 1 returns the
recorded pair. -/
theorem coalReachA : CoReach coalF coalIntents sA7 := by
  have h1 : CoStep coalF sA0 sA1 := CoStep.fastMiss 0 0 rfl rfl
  have h2 : CoStep coalF sA1 sA2 := CoStep.register 0 0 rfl rfl
  have h3 : CoStep coalF sA2 sA3 := CoStep.fastHit 1 0 0 rfl rfl
  have h4 : CoStep coalF sA3 sA4 := CoStep.execute 0 0 0 rfl
  have h5 : CoStep coalF sA4 sA5 := CoStep.removeKey 0 0 0 rfl
  have h6 : CoStep coalF sA5 sA6 := CoStep.doneSignal 0 0 0 ([42], none) rfl rfl
  have h7 : CoStep coalF sA6 sA7 := CoStep.waitReturn 1 0 0 ([42], none) rfl rfl rfl
  exact ((((((Relation.ReflTransGen.refl.tail h1).tail h2).tail h3).tail
    h4).tail h5).tail h6).tail h7

def sB0 : CoState := coInit coalIntents
def sB1 : CoState := { sB0 with
    threads := upd sB0.threads 0 (.slow 0) }
def sB2 : CoState :=
  { sB1 with
    calls := upd sB1.calls 0 (some sB1.nextCall),
    nextCall := sB1.nextCall + 1,
    threads := upd sB1.threads 0 (.running 0 sB1.nextCall) }
def sB3 : CoState :=
  { sB2 with
    callVal := upd sB2.callVal 0 (some (coalF6 sB2.fnCount)),
    fnCount := sB2.fnCount + 1,
    execs := upd sB2.execs 0 (sB2.execs 0 + 1),
    threads := upd sB2.threads 0 (.cleanup 0 0) }
def sB4 : CoState :=
  { sB3 with
    calls := upd sB3.calls 0 none,
    threads := upd sB3.threads 0 (.wgdone 0 0) }
def sB5 : CoState :=
  { sB4 with
    callDone := upd sB4.callDone 0 true,
    threads := upd sB4.threads 0 (.finished 0 0 ([0], none)) }
def sB6 : CoState := { sB5 with
    threads := upd sB5.threads 1 (.slow 0) }
def sB7 : CoState :=
  { sB6 with
    calls := upd sB6.calls 0 (some sB6.nextCall),
    nextCall := sB6.nextCall + 1,
    threads := upd sB6.threads 1 (.running 0 sB6.nextCall) }
def sB8 : CoState :=
  { sB7 with
    callVal := upd sB7.callVal 1 (some (coalF6 sB7.fnCount)),
    fnCount := sB7.fnCount + 1,
    execs := upd sB7.execs 1 (sB7.execs 1 + 1),
    threads := upd sB7.threads 1 (.cleanup 0 1) }
def sB9 : CoState :=
  { sB8 with
    calls := upd sB8.calls 0 none,
    threads := upd sB8.threads 1 (.wgdone 0 1) }
def sB10 : CoState :=
  { sB9 with
    callDone := upd sB9.callDone 1 true,
    threads := upd sB9.threads 1 (.finished 0 1 ([1], none)) }

/-- sequential schedule: goroutine 0 runs a complete `Do` for key 0,
and only afterwards does goroutine 1 start its own `Do` for the same
key. -/
theorem coalReachB5 : CoReach coalF6 coalIntents sB5 := by
  have h1 : CoStep coalF6 sB0 sB1 := CoStep.fastMiss 0 0 rfl rfl
  have h2 : CoStep coalF6 sB1 sB2 := CoStep.register 0 0 rfl rfl
  have h3 : CoStep coalF6 sB2 sB3 := CoStep.execute 0 0 0 rfl
  have h4 : CoStep coalF6 sB3 sB4 := CoStep.removeKey 0 0 0 rfl
  have h5 : CoStep coalF6 sB4 sB5 := CoStep.doneSignal 0 0 0 ([0], none) rfl rfl
  exact ((((Relation.ReflTransGen.refl.tail h1).tail h2).tail h3).tail h4).tail h5

theorem coalReachB : CoReach coalF6 coalIntents sB10 := by
  have h6 : CoStep coalF6 sB5 sB6 := CoStep.fastMiss 1 0 rfl rfl
  have h7 : CoStep coalF6 sB6 sB7 := CoStep.register 1 0 rfl rfl
  have h8 : CoStep coalF6 sB7 sB8 := CoStep.execute 1 0 1 rfl
  have h9 : CoStep coalF6 sB8 sB9 := CoStep.removeKey 1 0 1 rfl
  have h10 : CoStep coalF6 sB9 sB10 := CoStep.doneSignal 1 0 1 ([1], none) rfl rfl
  exact ((((coalReachB5.tail h6).tail h7).tail h8).tail h9).tail h10

end Coalescer

namespace Claims

open Coalescer

/-- C2: in every reachable state of the coalescer, at most one loader
execution is in flight per key (two goroutines `running` for the same
key are the same goroutine); any two `Do` calls that completed on the
same in-flight call record return the exact same `(value, error)` pair
(the one the single execution recorded); and a completed call record's
loader ran exactly once — N overlapping `Do(k, f)` calls sharing one
record invoke `f` once. -/
theorem C2_single_flight (f : Nat → Res) (intents : Nat → Nat) (s : CoState)
    (hreach : CoReach f intents s) :
    (∀ t1 t2 k c1 c2, s.threads t1 = .running k c1 → s.threads t2 = .running k c2 →
      t1 = t2) ∧
    (∀ t1 t2 k1 k2 c r1 r2, s.threads t1 = .finished k1 c r1 →
      s.threads t2 = .finished k2 c r2 → r1 = r2) ∧
    (∀ t k c r, s.threads t = .finished k c r → s.execs c = 1) := by
  have hs : Inv s := reach_inv hreach
  refine ⟨?_, ?_, ?_⟩
  · intro t1 t2 k c1 c2 h1 h2
    have e1 := (hs.run_st t1 k c1 h1).1
    have e2 := (hs.run_st t2 k c2 h2).1
    rw [e1] at e2
    have hcc : c1 = c2 := Option.some.inj e2
    exact hs.uniq t1 t2 c1 (by rw [h1]; exact rfl) (by rw [h2]; exact hcc.symm)
  · intro t1 t2 k1 k2 c r1 r2 h1 h2
    have v1 := (hs.fin_st t1 k1 c r1 h1).1
    have v2 := (hs.fin_st t2 k2 c r2 h2).1
    rw [v1] at v2
    exact Option.some.inj v2
  · intro t k c r h
    exact hs.val_execs c r (hs.fin_st t k c r h).1

/-- C2 witness: in the overlapping two-goroutine schedule both `Do`
calls return the pair the single execution recorded, and that call
record's loader ran exactly once. -/
theorem C2_witness :
    sA7.threads 0 = Phase.finished 0 0 ([42], none) ∧
    sA7.threads 1 = Phase.finished 0 0 ([42], none) ∧
    sA7.execs 0 = 1 ∧ sA7.fnCount = 1 :=
  ⟨rfl, rfl,
    (C2_single_flight coalF coalIntents sA7 coalReachA).2.2 1 0 0 ([42], none) rfl,
    rfl⟩

/-- C6: whenever some `Do` call has completed on a call record, the
in-flight record for its key has already been removed from the shard
map, so a later, non-overlapping `Do` starts fresh; concretely, in the
sequential two-call schedule each call registers its own record and
invokes the loader once — two invocations in total, with the map empty
between the calls. -/
theorem C6_sequential_no_caching :
    (∀ (f : Nat → Res) (intents : Nat → Nat) (s : CoState), CoReach f intents s →
      ∀ t k c r, s.threads t = .finished k c r → s.calls k ≠ some c) ∧
    CoReach coalF6 coalIntents sB10 ∧
    sB5.threads 0 = Phase.finished 0 0 ([0], none) ∧ sB5.calls 0 = none ∧
    sB10.threads 1 = Phase.finished 0 1 ([1], none) ∧
    sB10.execs 0 = 1 ∧ sB10.execs 1 = 1 ∧ sB10.fnCount = 2 := by
  refine ⟨?_, coalReachB, rfl, rfl, rfl, rfl, rfl, rfl⟩
  intro f intents s hreach t k c r hfin hsome
  have hs := reach_inv hreach
  obtain ⟨t0, ht0⟩ := hs.map_live k c hsome
  have hdone := (hs.fin_st t k c r hfin).2
  obtain ⟨_, _, hnoex⟩ := hs.flag c hdone
  rcases ht0 with h0 | h0
  · exact hnoex t0 (by rw [h0]; exact rfl)
  · exact hnoex t0 (by rw [h0]; exact rfl)

/-- C6 witness: after the first sequential call completed, the
in-flight map no longer holds its record. -/
theorem C6_witness : sB5.calls 0 ≠ some 0 :=
  C6_sequential_no_caching.1 coalF6 coalIntents sB5 coalReachB5 0 0 0 ([0], none) rfl

end Claims

end GoGo
